import Mathlib

/-!
# Verification of the turbo-geth storage ChangeSet codec and history index

This file gives a shallow embedding of the storage ChangeSet codec
(`EncodeStorage`, `DecodeStorage`, `StorageChangeSetBytes.Walk`,
`StorageChangeSetBytes.Find`, `findVal`, `getNumOfBytesByLen`, `writeKeyRow`,
`getUint32`, `calculateIncarnationPos3`), the history-index chunking logic of
the index generator (`changeSetWalker`), and the as-of query engine, together
with proofs and refutations of the specified properties.

Byte slices are modelled as `List Nat` whose elements are below 256; machine
integers are `Nat` with explicit `% 2 ^ w` truncation where the Go code
truncates.  A Go `panic` (out-of-range slice access or an invalid width) is
modelled as the absence of a result (`Option.none`, or a distinguished
`panicked` constructor of a result type); a returned Go `error` is modelled by
a distinguished error constructor.
-/

/-- Big-endian bytes of `n`, exactly `w` bytes wide (the Go `PutUintNN`
truncation `n % 2^(8*w)` is inherent). -/
def beBytes : Nat → Nat → List Nat
  | 0, _ => []
  | w + 1, n => beBytes w (n / 256) ++ [n % 256]

/-- Big-endian value of a byte list (the Go `binary.BigEndian.UintNN` read). -/
def beVal (l : List Nat) : Nat := l.foldl (fun acc x => acc * 256 + x) 0

/-- `^x` on a Go `uint64`: bitwise complement. -/
def not64 (x : Nat) : Nat := 2 ^ 64 - 1 - x % 2 ^ 64

/-- `DefaultIncarnation = ^uint64(1)`. -/
def DefaultIncarnation : Nat := not64 1

/-- `getNumOfBytesByLen` from the codec: dictionary-index byte width. -/
def getNumOfBytesByLen (n : Nat) : Nat :=
  if n < 255 then 1
  else if n < 65535 then 2
  else if n < 4294967295 then 4
  else 8

/-- `writeKeyRow(id, row)` with `w = len(row)`: writes `id` big-endian into a
`w`-byte row; any width outside {1,2,4,8} hits the `panic` branch, modelled as
`none`. -/
def writeKeyRow (id : Nat) (w : Nat) : Option (List Nat) :=
  if w = 1 ∨ w = 2 ∨ w = 4 ∨ w = 8 then some (beBytes w id) else none

/-- `getUint32(row)`: reads a dictionary index of width `len(row)`; widths
outside {1,2,4,8} hit the `panic` branch (`none`).  An 8-byte row is read as
`uint32(Uint64(row))`, hence the `% 2^32`. -/
def getUint32 (row : List Nat) : Option Nat :=
  if row.length = 1 ∨ row.length = 2 ∨ row.length = 4 then some (beVal row)
  else if row.length = 8 then some (beVal row % 2 ^ 32)
  else none

/-- Bounds-checked big-endian read of `k` bytes at (possibly negative) offset
`off`; an out-of-range Go slice/index access panics, modelled as `none`. -/
def readBE (l : List Nat) (off : Int) (k : Nat) : Option Nat :=
  if 0 ≤ off ∧ off.toNat + k ≤ l.length then
    some (beVal ((l.drop off.toNat).take k))
  else none

/-- `values[s:e]` with bounds check (`s ≤ e ≤ len` or panic). -/
def sliceVals (values : List Nat) (s e : Nat) : Option (List Nat) :=
  if s ≤ e ∧ e ≤ values.length then some ((values.drop s).take (e - s)) else none

/-- `findVal(lenOfVals, values, i, numOfUint8, numOfUint16, numOfUint32)`:
locate element `i`'s cumulative-length bucket and return the value slice.
Offsets are computed in `Int` exactly as the Go `int` arithmetic does;
a negative or out-of-range access, and the default (`panic`) branch for
`i` beyond all buckets, give `none`. -/
def findVal (lenOfVals values : List Nat) (i n8 n16 n32 : Nat) : Option (List Nat) :=
  if i < n8 then
    match readBE lenOfVals (i : Int) 1,
          (if 0 < i then readBE lenOfVals ((i : Int) - 1) 1 else some 0) with
    | some e, some s => sliceVals values s e
    | _, _ => none
  else if i < n8 + n16 then
    match readBE lenOfVals ((i : Int) * 2 - (n8 : Int)) 2,
          (if (i : Int) - 1 < (n8 : Int) then readBE lenOfVals ((i : Int) - 1) 1
           else readBE lenOfVals (((i : Int) - 1) * 2 - (n8 : Int)) 2) with
    | some e, some s => sliceVals values s e
    | _, _ => none
  else if i < n8 + n16 + n32 then
    match readBE lenOfVals ((n8 : Int) + 2 * (n16 : Int) + ((i : Int) - n8 - n16) * 4) 4,
          (if (i : Int) - 1 < (n8 : Int) + (n16 : Int) then
             readBE lenOfVals (((i : Int) - 1) * 2 - (n8 : Int)) 2
           else
             readBE lenOfVals ((n8 : Int) + 2 * (n16 : Int) + ((i : Int) - 1 - n8 - n16) * 4) 4) with
    | some e, some s => sliceVals values s e
    | _, _ => none
  else none

/-- `calculateIncarnationPos3`: offset of the incarnation-exceptions region
relative to the start of the cumulative-length table, read from the last
cumulative entry. -/
def calculateIncarnationPos3 (b : List Nat) (n8 n16 n32 : Nat) : Nat :=
  if 0 < n32 then
    beVal ((b.drop (n8 + n16 * 2 + n32 * 4 - 4)).take 4) + (n8 + n16 * 2 + n32 * 4)
  else if 0 < n16 then
    beVal ((b.drop (n8 + n16 * 2 - 2)).take 2) + (n8 + n16 * 2)
  else if 0 < n8 then
    beVal ((b.drop (n8 - 1)).take 1) + n8
  else 0

/-- A `(Key, Value)` change; storage keys are 72 bytes
(address-hash 32 + incarnation 8 + storage-key-hash 32). -/
structure Change where
  Key : List Nat
  Value : List Nat
deriving DecidableEq, Inhabited, Repr

/-- First 32 key bytes: the address hash. -/
def addrOf (c : Change) : List Nat := c.Key.take 32

/-- Key bytes 32..40: the (bit-inverted) incarnation as stored in the key. -/
def rawIncBytes (c : Change) : List Nat := (c.Key.drop 32).take 8

/-- Key bytes 40..72: the storage-key hash. -/
def keyHashOf (c : Change) : List Nat := (c.Key.drop 40).take 32

/-- The raw incarnation bytes corresponding to `DefaultIncarnation`
(`^DefaultIncarnation = 1`). -/
def defaultRawInc : List Nat := [0, 0, 0, 0, 0, 0, 0, 1]

/-- The address-hash dictionary in first-seen order (`addrHashesMap` /
`addrHashList` of `EncodeStorage`). -/
def dictOf (cs : List Change) : List (List Nat) :=
  cs.foldl (fun acc c => if addrOf c ∈ acc then acc else acc ++ [addrOf c]) []

/-- Whether element `i` is the first occurrence of its address hash. -/
def firstOcc (cs : List Change) (i : Nat) : Bool :=
  decide (∀ j < i, addrOf (cs.getD j default) ≠ addrOf (cs.getD i default))

/-- The trailing incarnation-exceptions bytes written by `EncodeStorage`:
for every first occurrence whose incarnation is not the default sentinel,
the record `{u32 elementIndex, u64 invertedIncarnation}` (the code writes
`uint32(i)` with `i` the element index, and `^incarnation`, which is the raw
key-byte value again). -/
def exceptionsOf (cs : List Change) : List Nat :=
  (((List.range cs.length).filter (fun i =>
      firstOcc cs i &&
        decide (beVal (rawIncBytes (cs.getD i default)) % 2 ^ 64 ≠ 1))).map
    (fun i => beBytes 4 i ++ beBytes 8 (beVal (rawIncBytes (cs.getD i default)) % 2 ^ 64))).flatten

/-- The running `uint32` cumulative sums of value lengths, in element order. -/
def cumsOf (cs : List Change) : List Nat :=
  (List.range cs.length).map
    (fun i => (((cs.take (i + 1)).map (fun c => c.Value.length)).sum) % 2 ^ 32)

/-- One cumulative-length table entry, bucketed by magnitude. -/
def lenEntry (c : Nat) : List Nat :=
  if c ≤ 255 then [c] else if c ≤ 65535 then beBytes 2 c else beBytes 4 c

/-- `numOfUint8` (a `uint16` counter). -/
def n8Of (cs : List Change) : Nat :=
  (((cumsOf cs).filter (fun c => decide (c ≤ 255))).length) % 2 ^ 16

/-- `numOfUint16` (a `uint16` counter). -/
def n16Of (cs : List Change) : Nat :=
  (((cumsOf cs).filter (fun c => decide (255 < c ∧ c ≤ 65535))).length) % 2 ^ 16

/-- `numOfUint32` (a `uint16` counter). -/
def n32Of (cs : List Change) : Nat :=
  (((cumsOf cs).filter (fun c => decide (65535 < c))).length) % 2 ^ 16

/-- Index of a hash in the dictionary (the `addrHashesMap` lookup: ids are
assigned in first-seen order, so the id is the position in `dictOf`). -/
def idxIn : List (List Nat) → List Nat → Nat
  | [], _ => 0
  | x :: xs, a => if x = a then 0 else idxIn xs a + 1

/-- One `[dictIndex][storageKeyHash]` row of the element table. -/
def rowOf (cs : List Change) (w : Nat) (c : Change) : List Nat :=
  beBytes w (idxIn (dictOf cs) (addrOf c)) ++ keyHashOf c

/-- `EncodeStorage` after the initial sort: header, dictionary, element rows,
bucket counters, cumulative-length table, concatenated values, exceptions. -/
def encodeSorted (cs : List Change) : List Nat :=
  beBytes 4 cs.length ++ beBytes 2 (dictOf cs).length ++ (dictOf cs).flatten
    ++ (cs.map (rowOf cs (getNumOfBytesByLen (dictOf cs).length))).flatten
    ++ beBytes 2 (n8Of cs) ++ beBytes 2 (n16Of cs) ++ beBytes 2 (n32Of cs)
    ++ ((cumsOf cs).map lenEntry).flatten
    ++ (cs.map (fun c => c.Value)).flatten
    ++ exceptionsOf cs

/-- Modelled from the spec: the `ChangeSet` sort order (`sort.Sort(s)` with the
`Less` of the changeset package, which is not under `src/`) is ascending by
`Key` under the `bytes.Compare` byte-lexicographic order. -/
def lexLe : List Nat → List Nat → Bool
  | [], _ => true
  | _ :: _, [] => false
  | a :: as, b :: bs => if a < b then true else if b < a then false else lexLe as bs

/-- Insert a change into a list sorted ascending by key. -/
def insertCh (c : Change) : List Change → List Change
  | [] => [c]
  | x :: xs => if lexLe c.Key x.Key then c :: x :: xs else x :: insertCh c xs

/-- Sorting of the change list performed by `sort.Sort(s)` at the start of
`EncodeStorage` (insertion sort; on unique keys any comparison sort agrees). -/
def sortChanges : List Change → List Change
  | [] => []
  | c :: cs => insertCh c (sortChanges cs)

/-- `EncodeStorage`: sorts the change set and serializes it. -/
def EncodeStorage (cs : List Change) : List Nat := encodeSorted (sortChanges cs)

/-- Result of `DecodeStorage`: a changeset, a structural error, or a Go panic. -/
inductive DResult where
  | ok (changes : List Change)
  | errTooShort
  | errIncarnation
  | panicked
deriving DecidableEq, Repr

/-- The incarnation-exception records (`{u32 id, u64 ^inc}` each 12 bytes)
starting at `pos`. -/
def incRecords (b : List Nat) (pos : Nat) : List (Nat × Nat) :=
  (List.range ((b.length - pos) / 12)).map (fun j =>
    (beVal ((b.drop (pos + 12 * j)).take 4),
     not64 (beVal ((b.drop (pos + 12 * j + 4)).take 8))))

/-- Go-map lookup over the records: the last insertion for a key wins. -/
def incLookup (rs : List (Nat × Nat)) (id : Nat) : Option Nat :=
  (rs.reverse.find? (fun r => r.1 = id)).map (fun r => r.2)

/-- `copy(dst, src)` into an `n`-byte zeroed buffer. -/
def padTo (n : Nat) (l : List Nat) : List Nat :=
  l.take n ++ List.replicate (n - (l.take n).length) 0

/-- Sequence an option-valued function over `0, 1, ..., n-1`. -/
def optMapRange {α : Type} (f : Nat → Option α) : Nat → Option (List α)
  | 0 => some []
  | n + 1 =>
    match optMapRange f n, f n with
    | some xs, some x => some (xs ++ [x])
    | _, _ => none

/-- Decode one element of the storage changeset (the body of the
`DecodeStorage` element loop). -/
def decodeElem (b : List Nat) (dictLen w lenPos valuesPos n8 n16 n32 : Nat)
    (rs : List (Nat × Nat)) (i : Nat) : Option Change :=
  let elem := 4 + 2 + dictLen * 32 + i * (w + 32)
  match getUint32 ((b.drop elem).take w) with
  | none => none
  | some addrIdx =>
    let addrPart := padTo 32 (if addrIdx < dictLen then (b.drop (6 + 32 * addrIdx)).take 32 else [])
    let incPart :=
      match incLookup rs addrIdx with
      | some inc => beBytes 8 (not64 inc)
      | none => beBytes 8 (not64 DefaultIncarnation)
    let keyPart := padTo 32 ((b.drop (elem + w)).take 32)
    match findVal ((b.drop lenPos).take (valuesPos - lenPos)) (b.drop valuesPos) i n8 n16 n32 with
    | none => none
    | some v => some { Key := addrPart ++ incPart ++ keyPart, Value := v }

/-- `DecodeStorage`: reconstruct the changeset from the wire bytes.  All
structural offsets are computed arithmetically exactly as in the source. -/
def DecodeStorage (b : List Nat) : DResult :=
  if b.length = 0 then .ok []
  else if b.length < 4 then .errTooShort
  else
    let numOfElements := beVal (b.take 4)
    if numOfElements = 0 then .ok []
    else
      let dictLen := beVal ((b.drop 4).take 2)
      let w := getNumOfBytesByLen dictLen
      let lenOfValsPos := 4 + 2 + dictLen * 32 + numOfElements * (w + 32)
      let n8 := beVal ((b.drop lenOfValsPos).take 2)
      let n16 := beVal ((b.drop (lenOfValsPos + 2)).take 2)
      let n32 := beVal ((b.drop (lenOfValsPos + 4)).take 2)
      let lenPos := lenOfValsPos + 6
      let valuesPos := lenPos + n8 + n16 * 2 + n32 * 4
      let incarnationPosition := lenPos + calculateIncarnationPos3 (b.drop lenPos) n8 n16 n32
      if incarnationPosition < b.length ∧ (b.length - incarnationPosition) % 12 ≠ 0 then
        .errIncarnation
      else
        let rs := if incarnationPosition < b.length then incRecords b incarnationPosition else []
        match optMapRange (decodeElem b dictLen w lenPos valuesPos n8 n16 n32 rs) numOfElements with
        | none => .panicked
        | some cs => .ok cs

/-- Result of `StorageChangeSetBytes.Walk` (the callback is abstracted as
collecting the visited `(key, value)` pairs; a callback error simply truncates
the walk, which no claim here depends on). -/
inductive WResult where
  | ok (pairs : List (List Nat × List Nat))
  | errTooShort
  | errIncarnation
  | panicked
deriving DecidableEq, Repr

/-- One element visited by `StorageChangeSetBytes.Walk` (identical key
reconstruction to `DecodeStorage`). -/
def walkElem (b : List Nat) (dictLen w lenPos valuesPos n8 n16 n32 : Nat)
    (rs : List (Nat × Nat)) (i : Nat) : Option (List Nat × List Nat) :=
  let elem := 4 + 2 + dictLen * 32 + i * (w + 32)
  match getUint32 ((b.drop elem).take w) with
  | none => none
  | some addrIdx =>
    let addrPart := padTo 32 (if addrIdx < dictLen then (b.drop (6 + 32 * addrIdx)).take 32 else [])
    let incPart :=
      match incLookup rs addrIdx with
      | some inc => beBytes 8 (not64 inc)
      | none => beBytes 8 (not64 DefaultIncarnation)
    let keyPart := padTo 32 ((b.drop (elem + w)).take 32)
    match findVal ((b.drop lenPos).take (valuesPos - lenPos)) (b.drop valuesPos) i n8 n16 n32 with
    | none => none
    | some v => some (addrPart ++ incPart ++ keyPart, v)

/-- `StorageChangeSetBytes.Walk`: streaming iteration over the encoded set. -/
def WalkSCS (b : List Nat) : WResult :=
  if b.length = 0 then .ok []
  else if b.length < 8 then .errTooShort
  else
    let numOfItems := beVal (b.take 4)
    if numOfItems = 0 then .ok []
    else
      let numOfUniqueItems := beVal ((b.drop 4).take 2)
      let w := getNumOfBytesByLen numOfUniqueItems
      let lenOfValsPos := 4 + 2 + numOfUniqueItems * 32 + numOfItems * (w + 32)
      let n8 := beVal ((b.drop lenOfValsPos).take 2)
      let n16 := beVal ((b.drop (lenOfValsPos + 2)).take 2)
      let n32 := beVal ((b.drop (lenOfValsPos + 4)).take 2)
      let lenPos := lenOfValsPos + 6
      let valuesPos := lenPos + n8 + n16 * 2 + n32 * 4
      let incarnationPosition := lenPos + calculateIncarnationPos3 (b.drop lenPos) n8 n16 n32
      if incarnationPosition < b.length ∧ (b.length - incarnationPosition) % 12 ≠ 0 then
        .errIncarnation
      else
        let rs := if incarnationPosition < b.length then incRecords b incarnationPosition else []
        match optMapRange (walkElem b numOfUniqueItems w lenPos valuesPos n8 n16 n32 rs)
            numOfItems with
        | none => .panicked
        | some ps => .ok ps

/-- Result of `StorageChangeSetBytes.Find`: `nilnil` is the Go
`return nil, nil` (no value, no error). -/
inductive FindResult where
  | ok (v : List Nat)
  | nilnil
  | errTooShort
  | notFound
  | panicked
deriving DecidableEq, Repr

/-- `StorageChangeSetBytes.Find(addrHash, keyHash)`: linear scan of the
dictionary for `addrHash`, then a linear scan of the element rows for the
`(dictIndex, keyHash)` pair. -/
def FindSCS (b : List Nat) (addrHash keyHash : List Nat) : FindResult :=
  if b.length = 0 then .nilnil
  else if b.length < 8 then .errTooShort
  else
    let numOfItems := beVal (b.take 4)
    if numOfItems = 0 then .nilnil
    else
      let numOfUniqueItems := beVal ((b.drop 4).take 2)
      ((List.range numOfUniqueItems).find?
          (fun i => decide ((b.drop (4 + 2 + i * 32)).take 32 = addrHash))).elim
        .notFound (fun addHashID =>
        let w := getNumOfBytesByLen numOfUniqueItems
        let lenOfValsPos := 4 + 2 + numOfUniqueItems * 32 + numOfItems * (w + 32)
        let n8 := beVal ((b.drop lenOfValsPos).take 2)
        let n16 := beVal ((b.drop (lenOfValsPos + 2)).take 2)
        let n32 := beVal ((b.drop (lenOfValsPos + 4)).take 2)
        let lenPos := lenOfValsPos + 6
        let valuesPos := lenPos + n8 + n16 * 2 + n32 * 4
        (writeKeyRow addHashID w).elim .panicked (fun encodedID =>
          ((List.range numOfItems).find? (fun i =>
              decide ((b.drop (4 + 2 + numOfUniqueItems * 32 + i * (w + 32))).take w = encodedID)
                && decide ((b.drop (4 + 2 + numOfUniqueItems * 32 + i * (w + 32) + w)).take 32
                     = keyHash))).elim
            .notFound (fun i =>
            (findVal ((b.drop lenPos).take (valuesPos - lenPos)) (b.drop valuesPos)
                i n8 n16 n32).elim .panicked (fun v => .ok v))))

/-!
## History index and index generator

`dbutils.HistoryIndexBytes` itself is not under `src/` (only its callers:
the generator's `changeSetWalker` and the chunking test).
-/

/-- Modelled from the spec: `dbutils.HistoryIndexBytes` (missing from `src/`)
holds an 8-byte element-count header followed by one 4-byte big-endian entry
per appended block number, so its encoded byte length is `8 + 4 * #entries`;
the spec's chunk-budget figures (250 sequential appends under the 1000-byte
budget split 247/3) and the chunking test fix these two sizes.  We track the
entry list; `encLen` is the encoded byte length `len(*index)`. -/
structure HistoryIndex where
  entries : List Nat
deriving DecidableEq, Repr

/-- The encoded byte length of a chunk (`len(*index)` in the walker). -/
def HistoryIndex.encLen (h : HistoryIndex) : Nat := 8 + 4 * h.entries.length

/-- Modelled from the spec: `dbutils.NewHistoryIndex()` — an empty chunk. -/
def newHistoryIndex : HistoryIndex := ⟨[]⟩

/-- Modelled from the spec: `HistoryIndexBytes.Append` adds one entry. -/
def historyIndexAppend (hi : HistoryIndex) (blockNum : Nat) : HistoryIndex :=
  ⟨hi.entries ++ [blockNum]⟩

/-- Modelled from the spec: `HistoryIndexBytes.Decode` returns the recorded
block numbers in append order. -/
def historyIndexDecode (hi : HistoryIndex) : List Nat := hi.entries

/-- `maxChunkSize` of the index generator. -/
def maxChunkSize : Nat := 1000

/-- Append into the last (open) chunk of a nonempty chunk list, starting a new
chunk first when the open chunk would exceed the budget (the
`len(*lastIndex)+8 > maxChunkSize` check of `changeSetWalker`). -/
def igAppendLast (x : HistoryIndex) (xs : List HistoryIndex) (b : Nat) :
    List HistoryIndex :=
  match xs with
  | [] =>
    if maxChunkSize < x.encLen + 8 then [x, historyIndexAppend newHistoryIndex b]
    else [historyIndexAppend x b]
  | y :: ys => x :: igAppendLast y ys b

/-- The per-key body of `changeSetWalker`: on a cache miss for a fresh key a
new empty chunk is created (`FindProperIndexChunk` returns `NewHistoryIndex`),
then the block number is appended to the open chunk, starting a new chunk
first if the open one would exceed the budget. -/
def igAppendBlock (indexes : List HistoryIndex) (blockNum : Nat) : List HistoryIndex :=
  match indexes with
  | [] => igAppendLast newHistoryIndex [] blockNum
  | x :: xs => igAppendLast x xs blockNum

/-- Appending a whole sequence of block numbers for one key. -/
def igAppendBlocks (blocks : List Nat) : List HistoryIndex :=
  blocks.foldl igAppendBlock []

/-!
## As-of query engine (modelled from the spec)
-/

/-- Modelled from the spec: binary search (fuelled halving search, kernel
reducible) for the least index in `[lo, hi)` whose entry is `≥ target`;
returns `hi` when there is none.  This models step 2 of `GetAsOf`
("binary-search the decoded chunk for the smallest recorded block number
`≥ block`"), whose implementation is not under `src/`. -/
def lowerBoundAux (l : List Nat) (target : Nat) : Nat → Nat → Nat → Nat
  | 0, lo, _ => lo
  | fuel + 1, lo, hi =>
    if lo < hi then
      let mid := (lo + hi) / 2
      if target ≤ l.getD mid 0 then lowerBoundAux l target fuel lo mid
      else lowerBoundAux l target fuel (mid + 1) hi
    else lo

/-- Least index of an entry `≥ target` (or `l.length` if none). -/
def lowerBound (l : List Nat) (target : Nat) : Nat :=
  lowerBoundAux l target (l.length + 1) 0 l.length

/-- Modelled from the spec: `GetAsOf` (not under `src/`; only its test is).
`hist` is the decoded history-index chunk for the key paired with the
pre-image recorded at each change (the value held *before* that block's
mutation), ascending by block; `current` is the current-state table entry.
The query binary-searches for the smallest recorded block number `≥ block`
and returns that change's pre-image, else falls back to the current state. -/
def GetAsOf (hist : List (Nat × Nat)) (current : Option Nat) (block : Nat) : Option Nat :=
  let idx := lowerBound (hist.map (fun e => e.1)) block
  match hist.get? idx with
  | some e => some e.2
  | none => current

/-!
## Claim C6: dictionary-index byte width
-/

/-- The width the claim describes: the minimum element of {1,2,4,8} whose byte
width is sufficient to represent the value `m` (stated from the spec's words,
for comparison with the source's `getNumOfBytesByLen`). -/
def minWidthFor (m : Nat) : Nat :=
  if m < 256 then 1 else if m < 2 ^ 16 then 2 else if m < 2 ^ 32 then 4 else 8

/-- C6 counterexample: at `N = 255` the largest dictionary index `N - 1 = 254`
fits in one byte, but the codec chooses two bytes — the claim's
characterisation fails at the bucket boundaries. -/
theorem getNumOfBytesByLen_ne_minWidth_at_255 :
    getNumOfBytesByLen 255 ≠ minWidthFor (255 - 1) := by decide

/-- C6 (amended): for `1 ≤ N` in the Go `int` range, `getNumOfBytesByLen N` is
the minimum element of {1,2,4,8} whose maximum representable value
`2^(8w) - 1` strictly exceeds `N` (exclusive thresholds 255, 65535,
4294967295), not the minimum width sufficient for `N - 1`. -/
theorem getNumOfBytesByLen_eq_min_strict_width (N : Nat) (h1 : 1 ≤ N) (h2 : N < 2 ^ 63) :
    (getNumOfBytesByLen N = 1 ∨ getNumOfBytesByLen N = 2 ∨
      getNumOfBytesByLen N = 4 ∨ getNumOfBytesByLen N = 8) ∧
    N < 256 ^ getNumOfBytesByLen N - 1 ∧
    (∀ w, (w = 1 ∨ w = 2 ∨ w = 4 ∨ w = 8) → N < 256 ^ w - 1 → getNumOfBytesByLen N ≤ w) := by
  unfold getNumOfBytesByLen
  split_ifs with hA hB hC
  · refine ⟨Or.inl rfl, by norm_num; omega, ?_⟩
    rintro w (rfl | rfl | rfl | rfl) _
    all_goals norm_num
  · refine ⟨Or.inr (Or.inl rfl), by norm_num; omega, ?_⟩
    rintro w (rfl | rfl | rfl | rfl) hw
    all_goals norm_num at hw ⊢
    all_goals omega
  · refine ⟨Or.inr (Or.inr (Or.inl rfl)), by norm_num; omega, ?_⟩
    rintro w (rfl | rfl | rfl | rfl) hw
    all_goals norm_num at hw ⊢
    all_goals omega
  · refine ⟨Or.inr (Or.inr (Or.inr rfl)), by norm_num; omega, ?_⟩
    rintro w (rfl | rfl | rfl | rfl) hw
    all_goals norm_num at hw ⊢
    all_goals omega

/-- Witness for the amended C6 theorem at `N = 300`. -/
theorem getNumOfBytesByLen_eq_min_strict_width_witness :
    1 ≤ 300 ∧ 300 < 2 ^ 63 ∧ 300 < 256 ^ getNumOfBytesByLen 300 - 1 :=
  ⟨by decide, by norm_num,
    (getNumOfBytesByLen_eq_min_strict_width 300 (by decide) (by norm_num)).2.1⟩

/-!
## Claim C3: `findVal` bucket crossing
-/

/-- C3: with one uint8 entry (cumulative 200), an empty uint16 bucket and one
uint32 entry (cumulative 70200, bytes `[0,1,18,56]`), element 1 crosses
directly from the uint8 bucket into the uint32 bucket.  The start offset
should be the prior cumulative entry `lenOfVals[0] = 200`, but the code
computes `(i-1)*2 - numOfUint8 = -1` and reads a uint16 there: a slice-bounds
panic (`none`), instead of the value slice `values[200:70200]`. -/
theorem findVal_uint8_to_uint32_crossing_panics :
    findVal [200, 0, 1, 18, 56] [] 1 1 0 1 = none := by decide

/-!
## Claim C7: width validation in the byte-indexing helpers
-/

/-- C7 counterexample input: a two-change set whose first value is 300 bytes
long, so the first cumulative length lands in the uint16 bucket
(`numOfUint8 = 0`).  Decoding its own encoder's output then panics in
`findVal` (`lenOfVals[-1]`), so malformed widths/records are *not* all turned
into recoverable errors and a byte slice *can* abort decoding. -/
def csPanic : List Change :=
  [ { Key := List.replicate 32 20 ++ [0, 0, 0, 0, 0, 0, 0, 1] ++ List.replicate 32 1,
      Value := List.replicate 300 9 },
    { Key := List.replicate 32 21 ++ [0, 0, 0, 0, 0, 0, 0, 1] ++ List.replicate 32 2,
      Value := [4] } ]

set_option maxRecDepth 100000 in
/-- C7 counterexample: decoding aborts (Go panic) on this input instead of
returning a recoverable structural error. -/
theorem decodeStorage_panics_on_uint16_bucket_input :
    DecodeStorage (EncodeStorage csPanic) = .panicked := by decide

/-- C7 (amended): the width dispatch of `writeKeyRow`, `getUint32` and the
bucket dispatch of `findVal` do validate against the enumerated set {1,2,4,8}
(resp. the bucket ranges), but any other width — and an element index beyond
every bucket — takes the `panic` branch (no result), aborting the process
rather than returning a recoverable structural-decode error. -/
theorem helpers_validate_width_but_panic :
    (∀ id w, (writeKeyRow id w).isSome ↔ (w = 1 ∨ w = 2 ∨ w = 4 ∨ w = 8)) ∧
    (∀ row : List Nat,
      (getUint32 row).isSome ↔
        (row.length = 1 ∨ row.length = 2 ∨ row.length = 4 ∨ row.length = 8)) ∧
    (∀ lenOfVals values : List Nat, ∀ i n8 n16 n32 : Nat,
      n8 + n16 + n32 ≤ i → findVal lenOfVals values i n8 n16 n32 = none) := by
  refine ⟨fun id w => ?_, fun row => ?_, fun lenOfVals values i n8 n16 n32 h => ?_⟩
  · unfold writeKeyRow
    split_ifs with hw
    · simpa using hw
    · simpa using hw
  · unfold getUint32
    split_ifs with h1 h2
    · simp only [Option.isSome_some, true_iff]; tauto
    · simp only [Option.isSome_some, true_iff]; tauto
    · simp only [Option.isSome_none, Bool.false_eq_true, false_iff]; tauto
  · unfold findVal
    have h1 : ¬ i < n8 := by omega
    have h2 : ¬ i < n8 + n16 := by omega
    have h3 : ¬ i < n8 + n16 + n32 := by omega
    simp [h1, h2, h3]

/-- Witness for the amended C7 theorem (the `findVal` conjunct has a
hypothesis): element index 5 is beyond the buckets `3 + 1 + 1`. -/
theorem helpers_validate_width_but_panic_witness :
    3 + 1 + 1 ≤ 5 ∧ findVal [1, 2, 3] [9] 5 3 1 1 = none :=
  ⟨by decide, helpers_validate_width_but_panic.2.2 [1, 2, 3] [9] 5 3 1 1 (by decide)⟩

/-!
## Claim C2: the `GetAsOf` scenario
-/

/-- C2: in the test scenario the account is mutated at blocks 0, 2 and 4, so
the recorded pre-images are: at block 2 the nonce-1 snapshot, at block 4 the
nonce-3 snapshot (and at block 0 the empty pre-state); the current state holds
the final value (nonce 9 here).  `GetAsOf` binary-searches for the smallest
recorded block number `≥` the queried block and returns that change's
pre-image, falling back to the current state: blocks 1 and 2 give the nonce-1
snapshot, block 3 gives nonce 3, blocks 5 and 7 give the final value. -/
theorem getAsOf_scenario :
    GetAsOf [(0, 0), (2, 1), (4, 3)] (some 9) 1 = some 1 ∧
    GetAsOf [(0, 0), (2, 1), (4, 3)] (some 9) 2 = some 1 ∧
    GetAsOf [(0, 0), (2, 1), (4, 3)] (some 9) 3 = some 3 ∧
    GetAsOf [(0, 0), (2, 1), (4, 3)] (some 9) 5 = some 9 ∧
    GetAsOf [(0, 0), (2, 1), (4, 3)] (some 9) 7 = some 9 := by decide

/-!
## Claim C9 counterexample: `Find` on the empty input
-/

/-- C9 counterexample: on the empty input (which `DecodeStorage` accepts as
the encoding of the empty changeset) `Find` returns the Go `nil, nil` — a nil
value together with a nil error — which is neither a value nor a not-found
error, refuting "these are the only two outcomes". -/
theorem findSCS_empty_returns_nil_nil :
    FindSCS [] (List.replicate 32 10) (List.replicate 32 1) = .nilnil ∧
    FindSCS [] (List.replicate 32 10) (List.replicate 32 1) ≠ .notFound := by decide

/-!
## Claims C1 and C4: the encode/decode round trip fails
-/

/-- C1 failing input: one strictly-sorted change with a 72-byte key carrying
the default incarnation and a 256-byte value.  Its first cumulative value
length (256) lands in the uint16 bucket, so `numOfUint8 = 0`, and decoding the
element start offset reads `lenOfVals[-1]`. -/
def csLongValue : List Change :=
  [ { Key := List.replicate 32 10 ++ [0, 0, 0, 0, 0, 0, 0, 1] ++ List.replicate 32 1,
      Value := List.replicate 256 7 } ]

set_option maxRecDepth 100000 in
/-- C1: `DecodeStorage (EncodeStorage csLongValue)` aborts with a Go panic
(slice index -1 in `findVal`) instead of returning the changeset, refuting the
round-trip property on a strictly-sorted unique-key input. -/
theorem storage_roundtrip_panics_on_long_value :
    csLongValue.length = 1 ∧ (csLongValue.getD 0 default).Key.length = 72 ∧
    DecodeStorage (EncodeStorage csLongValue) = .panicked := by decide

/-- C4 failing input: address hash `10...` occupies elements 0 and 1 (default
incarnation), address hash `11...` occupies element 2 with the non-default
raw incarnation bytes `[0,...,0,5]`; keys are strictly sorted and unique. -/
def csMultiEntryInc : List Change :=
  [ { Key := List.replicate 32 10 ++ [0, 0, 0, 0, 0, 0, 0, 1] ++ List.replicate 32 1,
      Value := [1] },
    { Key := List.replicate 32 10 ++ [0, 0, 0, 0, 0, 0, 0, 1] ++ List.replicate 32 2,
      Value := [2] },
    { Key := List.replicate 32 11 ++ [0, 0, 0, 0, 0, 0, 0, 5] ++ List.replicate 32 1,
      Value := [3] } ]

/-- What `DecodeStorage (EncodeStorage csMultiEntryInc)` actually produces:
the third entry comes back with the *default* incarnation bytes, because the
encoder records the exception under element index 2 while the decoder looks it
up under the address's dictionary index 1. -/
def csMultiEntryIncDecoded : List Change :=
  [ { Key := List.replicate 32 10 ++ [0, 0, 0, 0, 0, 0, 0, 1] ++ List.replicate 32 1,
      Value := [1] },
    { Key := List.replicate 32 10 ++ [0, 0, 0, 0, 0, 0, 0, 1] ++ List.replicate 32 2,
      Value := [2] },
    { Key := List.replicate 32 11 ++ [0, 0, 0, 0, 0, 0, 0, 1] ++ List.replicate 32 1,
      Value := [3] } ]

set_option maxRecDepth 100000 in
/-- C4: bit-inverting twice is the identity on `uint64`, but the incarnation
round trip fails as soon as an entry's element index differs from its
address's dictionary index: the non-default incarnation of the third change is
decoded as the default sentinel. -/
theorem storage_roundtrip_loses_incarnation :
    (∀ x : Nat, not64 (not64 x) = x % 2 ^ 64) ∧
    DecodeStorage (EncodeStorage csMultiEntryInc) = .ok csMultiEntryIncDecoded ∧
    csMultiEntryIncDecoded ≠ csMultiEntryInc ∧
    rawIncBytes (csMultiEntryInc.getD 2 default) ≠ defaultRawInc ∧
    rawIncBytes (csMultiEntryIncDecoded.getD 2 default) = defaultRawInc := by
  refine ⟨fun x => ?_, by decide, by decide, by decide, by decide⟩
  unfold not64
  omega

/-!
## Claim C5: history-index chunking
-/

/-- One generator append step keeps every chunk at or below 996 encoded
bytes: a new chunk is started before any append that would push the open chunk
over the budget. -/
theorem igAppendLast_bound (b : Nat) :
    ∀ (xs : List HistoryIndex) (x : HistoryIndex), x.encLen ≤ 996 →
      (∀ c ∈ xs, c.encLen ≤ 996) →
      ∀ c ∈ igAppendLast x xs b, c.encLen ≤ 996 := by
  intro xs
  induction xs with
  | nil =>
    intro x hx _ c hc
    unfold igAppendLast at hc
    split at hc
    · rcases List.mem_cons.mp hc with rfl | hc
      · exact hx
      · have : c = historyIndexAppend newHistoryIndex b := by simpa using hc
        simp [this, historyIndexAppend, newHistoryIndex, HistoryIndex.encLen]
    · rename_i hguard
      have hxe : x.encLen ≤ 992 := by
        simp only [maxChunkSize, not_lt] at hguard
        omega
      have : c = historyIndexAppend x b := by simpa using hc
      simp only [this, historyIndexAppend, HistoryIndex.encLen, List.length_append,
        List.length_cons, List.length_nil]
      simp only [HistoryIndex.encLen] at hxe
      omega
  | cons y ys ih =>
    intro x hx hxs c hc
    unfold igAppendLast at hc
    rcases List.mem_cons.mp hc with rfl | hc
    · exact hx
    · exact ih y (hxs y (by simp)) (fun d hd => hxs d (by simp [hd])) c hc

/-- One `igAppendBlock` step preserves the 996-byte bound. -/
theorem igAppendBlock_bound (acc : List HistoryIndex) (b : Nat)
    (h : ∀ c ∈ acc, c.encLen ≤ 996) :
    ∀ c ∈ igAppendBlock acc b, c.encLen ≤ 996 := by
  unfold igAppendBlock
  match acc with
  | [] =>
    exact igAppendLast_bound b [] newHistoryIndex (by simp [newHistoryIndex, HistoryIndex.encLen])
      (by simp)
  | x :: xs =>
    exact igAppendLast_bound b xs x (h x (by simp)) (fun d hd => h d (by simp [hd]))

/-- Folding append steps keeps every chunk at or below 996 encoded bytes. -/
theorem igAppendBlocks_bound_aux (blocks : List Nat) :
    ∀ acc : List HistoryIndex, (∀ c ∈ acc, c.encLen ≤ 996) →
      ∀ c ∈ blocks.foldl igAppendBlock acc, c.encLen ≤ 996 := by
  induction blocks with
  | nil => intro acc h c hc; exact h c hc
  | cons x xs ih =>
    intro acc h c hc
    exact ih (igAppendBlock acc x) (igAppendBlock_bound acc x h) c hc

set_option maxRecDepth 40000 in
/-- C5: appending blocks 0..249 for one key under the 1000-byte budget yields
exactly 2 chunks — the first holding blocks 0..246 (247 entries), the second
exactly {247, 248, 249} — and for *every* block sequence no chunk's encoded
length ever exceeds the budget (a new chunk is started first whenever the
append would exceed it). -/
theorem indexChunking_scenario_and_bound :
    (igAppendBlocks (List.range 250)).length = 2 ∧
    historyIndexDecode ((igAppendBlocks (List.range 250)).getD 0 newHistoryIndex)
      = List.range 247 ∧
    historyIndexDecode ((igAppendBlocks (List.range 250)).getD 1 newHistoryIndex)
      = [247, 248, 249] ∧
    (∀ blocks : List Nat, ∀ c ∈ igAppendBlocks blocks, c.encLen ≤ maxChunkSize) := by
  refine ⟨by decide, by decide, by decide, fun blocks c hc => ?_⟩
  have := igAppendBlocks_bound_aux blocks [] (by simp) c hc
  simp only [maxChunkSize]
  omega

/-- Witness for the chunk-budget bound of the C5 theorem at the concrete
one-block sequence `[0]`. -/
theorem indexChunking_scenario_and_bound_witness :
    historyIndexAppend newHistoryIndex 0 ∈ igAppendBlocks [0] ∧
    (historyIndexAppend newHistoryIndex 0).encLen ≤ maxChunkSize :=
  ⟨by decide,
    indexChunking_scenario_and_bound.2.2.2 [0] (historyIndexAppend newHistoryIndex 0) (by decide)⟩

/-!
## Claim C10: the encoding is canonical under permutation

`EncodeStorage` sorts in place before writing (`sort.Sort(s)`), so two
changesets holding the same changes in any order serialize identically.
-/

/-- `lexLe` is transitive. -/
theorem lexLe_trans : ∀ a b c : List Nat,
    lexLe a b = true → lexLe b c = true → lexLe a c = true := by
  intro a
  induction a with
  | nil => intro b c _ _; rfl
  | cons x xs ih =>
    intro b c h1 h2
    cases b with
    | nil => simp [lexLe] at h1
    | cons y ys =>
      cases c with
      | nil => simp [lexLe] at h2
      | cons z zs =>
        simp only [lexLe] at h1 h2 ⊢
        have hxy : x ≤ y := by
          by_cases h : x < y
          · omega
          · simp only [h, if_false] at h1
            by_cases h' : y < x
            · simp [h'] at h1
            · omega
        have hyz : y ≤ z := by
          by_cases h : y < z
          · omega
          · simp only [h, if_false] at h2
            by_cases h' : z < y
            · simp [h'] at h2
            · omega
        by_cases hxz : x < z
        · simp [hxz]
        · have hzx : ¬ z < x := by omega
          simp only [hxz, hzx, if_false]
          have hx : x = y := by omega
          have hz : y = z := by omega
          subst hx
          subst hz
          simp only [lt_irrefl, if_false] at h1 h2
          exact ih ys zs h1 h2

/-- `lexLe` is total. -/
theorem lexLe_total : ∀ a b : List Nat, lexLe a b = true ∨ lexLe b a = true := by
  intro a
  induction a with
  | nil => intro b; exact Or.inl rfl
  | cons x xs ih =>
    intro b
    cases b with
    | nil => exact Or.inr rfl
    | cons y ys =>
      simp only [lexLe]
      by_cases hxy : x < y
      · exact Or.inl (by simp [hxy])
      · by_cases hyx : y < x
        · exact Or.inr (by simp [hyx])
        · rcases ih ys with h | h
          · exact Or.inl (by simp [hxy, hyx, h])
          · exact Or.inr (by simp [hxy, hyx, h])

/-- `lexLe` is antisymmetric. -/
theorem lexLe_antisymm : ∀ a b : List Nat,
    lexLe a b = true → lexLe b a = true → a = b := by
  intro a
  induction a with
  | nil =>
    intro b _ h2
    cases b with
    | nil => rfl
    | cons y ys => simp [lexLe] at h2
  | cons x xs ih =>
    intro b h1 h2
    cases b with
    | nil => simp [lexLe] at h1
    | cons y ys =>
      simp only [lexLe] at h1 h2
      have hxy : ¬ x < y := by
        intro h
        simp [h, show ¬ y < x by omega] at h2
      have hyx : ¬ y < x := by
        intro h
        simp [h, show ¬ x < y by omega] at h1
      simp only [hxy, hyx, if_false] at h1 h2
      have : x = y := by omega
      rw [this, ih ys h1 h2]

/-- The sortedness predicate used by the codec: ascending by key. -/
def SortedCh (l : List Change) : Prop :=
  l.Pairwise (fun a b => lexLe a.Key b.Key = true)

/-- Inserting keeps the list a permutation. -/
theorem insertCh_perm (c : Change) : ∀ l : List Change, (insertCh c l).Perm (c :: l) := by
  intro l
  induction l with
  | nil => exact List.Perm.refl _
  | cons x xs ih =>
    unfold insertCh
    split
    · exact List.Perm.refl _
    · exact (ih.cons x).trans (List.Perm.swap c x xs)

/-- Sorting is a permutation. -/
theorem sortChanges_perm : ∀ l : List Change, (sortChanges l).Perm l := by
  intro l
  induction l with
  | nil => exact List.Perm.refl _
  | cons x xs ih => exact (insertCh_perm x (sortChanges xs)).trans (ih.cons x)

/-- Inserting into a sorted list keeps it sorted. -/
theorem insertCh_sorted (c : Change) :
    ∀ l : List Change, SortedCh l → SortedCh (insertCh c l) := by
  intro l
  induction l with
  | nil => intro _; exact List.pairwise_singleton _ _
  | cons x xs ih =>
    intro hs
    rcases List.pairwise_cons.mp hs with ⟨hx, hxs⟩
    unfold insertCh
    split
    · rename_i hcx
      refine List.pairwise_cons.mpr ⟨?_, hs⟩
      intro b hb
      rcases List.mem_cons.mp hb with rfl | hb
      · exact hcx
      · exact lexLe_trans _ _ _ hcx (hx b hb)
    · rename_i hcx
      have hxc : lexLe x.Key c.Key = true := by
        rcases lexLe_total c.Key x.Key with h | h
        · exact absurd h hcx
        · exact h
      refine List.pairwise_cons.mpr ⟨?_, ih hxs⟩
      intro b hb
      have : b ∈ c :: xs := (insertCh_perm c xs).mem_iff.mp hb
      rcases List.mem_cons.mp this with rfl | hb'
      · exact hxc
      · exact hx b hb'

/-- `sortChanges` sorts. -/
theorem sortChanges_sorted : ∀ l : List Change, SortedCh (sortChanges l) := by
  intro l
  induction l with
  | nil => exact List.Pairwise.nil
  | cons x xs ih => exact insertCh_sorted x (sortChanges xs) ih

/-- Two sorted permutations of each other with pairwise-distinct keys are
equal (the comparator only sees keys, so uniqueness of keys pins the order). -/
theorem sorted_perm_nodup_eq : ∀ l₁ l₂ : List Change, l₁.Perm l₂ →
    SortedCh l₁ → SortedCh l₂ → (l₁.map (fun c => c.Key)).Nodup → l₁ = l₂ := by
  intro l₁
  induction l₁ with
  | nil => intro l₂ hp _ _ _; exact (hp.nil_eq).symm ▸ rfl
  | cons a t₁ ih =>
    intro l₂ hp hs₁ hs₂ hnd
    cases l₂ with
    | nil => exact absurd hp.symm.nil_eq (by simp)
    | cons b t₂ =>
      rcases List.pairwise_cons.mp hs₁ with ⟨ha, ht₁⟩
      rcases List.pairwise_cons.mp hs₂ with ⟨hb, ht₂⟩
      have hnd' : (a.Key :: t₁.map (fun c => c.Key)).Nodup := by
        simpa using hnd
      rcases List.nodup_cons.mp hnd' with ⟨hak, htk⟩
      have hab : a = b := by
        by_cases h : a = b
        · exact h
        · have hbmem : b ∈ a :: t₁ := hp.symm.subset (by simp)
          have hbt₁ : b ∈ t₁ := by
            rcases List.mem_cons.mp hbmem with rfl | hh
            · exact absurd rfl h
            · exact hh
          have hamem : a ∈ b :: t₂ := hp.subset (by simp)
          have hat₂ : a ∈ t₂ := by
            rcases List.mem_cons.mp hamem with rfl | hh
            · exact absurd rfl h
            · exact hh
          have h1 : lexLe a.Key b.Key = true := ha b hbt₁
          have h2 : lexLe b.Key a.Key = true := hb a hat₂
          have hkey : a.Key = b.Key := lexLe_antisymm _ _ h1 h2
          exact absurd (hkey ▸ List.mem_map_of_mem (fun c => c.Key) hbt₁) hak
      subst hab
      have hpt : t₁.Perm t₂ := hp.cons_inv
      rw [ih t₂ hpt ht₁ ht₂ htk]

/-- Sorting a sorted list is the identity. -/
theorem sortChanges_eq_self : ∀ l : List Change, SortedCh l → sortChanges l = l := by
  intro l
  induction l with
  | nil => intro _; rfl
  | cons x xs ih =>
    intro hs
    rcases List.pairwise_cons.mp hs with ⟨hx, hxs⟩
    have hrec : sortChanges xs = xs := ih hxs
    unfold sortChanges
    rw [hrec]
    cases xs with
    | nil => rfl
    | cons y ys =>
      unfold insertCh
      rw [if_pos (hx y (by simp))]

/-- C10: `EncodeStorage` sorts before writing, so any two changesets with the
same changes (unique keys) in any order produce byte-for-byte identical
output. -/
theorem encodeStorage_canonical (cs₁ cs₂ : List Change) (hperm : cs₁.Perm cs₂)
    (hnd : (cs₁.map (fun c => c.Key)).Nodup) :
    EncodeStorage cs₁ = EncodeStorage cs₂ := by
  unfold EncodeStorage
  have hsorteq : sortChanges cs₁ = sortChanges cs₂ := by
    apply sorted_perm_nodup_eq
    · exact (sortChanges_perm cs₁).trans (hperm.trans (sortChanges_perm cs₂).symm)
    · exact sortChanges_sorted cs₁
    · exact sortChanges_sorted cs₂
    · exact (((sortChanges_perm cs₁).map (fun c => c.Key)).nodup_iff).mpr hnd
  rw [hsorteq]

/-- Witness for C10: two two-element changesets holding the same changes in
opposite orders encode identically. -/
theorem encodeStorage_canonical_witness :
    ([⟨List.replicate 72 1, [5]⟩, ⟨List.replicate 72 2, [6]⟩] : List Change).Perm
      [⟨List.replicate 72 2, [6]⟩, ⟨List.replicate 72 1, [5]⟩] ∧
    EncodeStorage [⟨List.replicate 72 1, [5]⟩, ⟨List.replicate 72 2, [6]⟩]
      = EncodeStorage [⟨List.replicate 72 2, [6]⟩, ⟨List.replicate 72 1, [5]⟩] :=
  ⟨by decide,
    encodeStorage_canonical _ _ (by decide) (by decide)⟩

/-!
## Byte-level and segment lemmas for the wire format
-/

/-- `beBytes w n` is `w` bytes long. -/
theorem beBytes_length : ∀ (w n : Nat), (beBytes w n).length = w := by
  intro w
  induction w with
  | zero => intro n; rfl
  | succ w ih => intro n; simp [beBytes, ih]

/-- Every byte of `beBytes` is below 256. -/
theorem beBytes_lt : ∀ (w n : Nat), ∀ x ∈ beBytes w n, x < 256 := by
  intro w
  induction w with
  | zero => intro n x hx; simp [beBytes] at hx
  | succ w ih =>
    intro n x hx
    rcases List.mem_append.mp hx with h | h
    · exact ih _ x h
    · simp at h
      omega

/-- Reading back big-endian bytes. -/
theorem beVal_beBytes : ∀ (w n : Nat), beVal (beBytes w n) = n % 256 ^ w := by
  intro w
  induction w with
  | zero => intro n; simp [beBytes, beVal, Nat.mod_one]
  | succ w ih =>
    intro n
    have h1 : beVal (beBytes (w + 1) n) = beVal (beBytes w (n / 256)) * 256 + n % 256 := by
      simp [beBytes, beVal, List.foldl_append]
    rw [h1, ih, pow_succ', Nat.mod_mul]
    generalize n / 256 % 256 ^ w = A
    omega

/-- Reading back big-endian bytes of a small value. -/
theorem beVal_beBytes_small (w n : Nat) (h : n < 256 ^ w) : beVal (beBytes w n) = n := by
  rw [beVal_beBytes, Nat.mod_eq_of_lt h]

/-- Dropping a leading segment of exactly known length. -/
theorem drop_append_exact {α : Type} (l1 l2 : List α) (k : Nat) (h : l1.length = k) :
    (l1 ++ l2).drop k = l2 := by
  subst h
  exact List.drop_left l1 l2

/-- Taking a leading segment of exactly known length. -/
theorem take_append_exact {α : Type} (l1 l2 : List α) (k : Nat) (h : l1.length = k) :
    (l1 ++ l2).take k = l1 := by
  subst h
  exact List.take_left l1 l2

/-- Extracting the `i`-th fixed-width record from a flattened record list
(with arbitrary trailing bytes). -/
theorem flatten_record_extract : ∀ (l : List (List Nat)) (tail : List Nat) (m i : Nat),
    (∀ x ∈ l, x.length = m) → i < l.length →
    (((l.flatten ++ tail).drop (i * m)).take m) = l.getD i [] := by
  intro l
  induction l with
  | nil => intro tail m i _ hi; simp at hi
  | cons x xs ih =>
    intro tail m i hlen hi
    cases i with
    | zero =>
      simp only [Nat.zero_mul, List.drop_zero, List.flatten_cons, List.getD]
      rw [List.append_assoc]
      exact take_append_exact x _ m (hlen x (by simp))
    | succ i =>
      have hx : x.length = m := hlen x (by simp)
      have : ((x :: xs).flatten ++ tail).drop ((i + 1) * m)
          = (xs.flatten ++ tail).drop (i * m) := by
        simp only [List.flatten_cons, List.append_assoc]
        have harith : (i + 1) * m = x.length + i * m := by rw [hx]; ring
        rw [harith, List.drop_append]
      rw [this]
      exact ih tail m i (fun y hy => hlen y (by simp [hy])) (by simpa using hi)

/-- Extracting the `i`-th variable-length segment from flattened segments
(with arbitrary trailing bytes), by the sum of the preceding lengths. -/
theorem flatten_segment_extract : ∀ (l : List (List Nat)) (tail : List Nat) (i : Nat),
    i < l.length →
    ((l.flatten ++ tail).drop (((l.take i).map List.length).sum)).take (l.getD i []).length
      = l.getD i [] := by
  intro l
  induction l with
  | nil => intro tail i hi; simp at hi
  | cons x xs ih =>
    intro tail i hi
    cases i with
    | zero =>
      simp only [List.take_zero, List.map_nil, List.sum_nil, List.drop_zero,
        List.flatten_cons, List.getD]
      rw [List.append_assoc]
      exact take_append_exact x _ _ rfl
    | succ i =>
      simp only [List.take_succ_cons, List.map_cons, List.sum_cons, List.flatten_cons,
        List.append_assoc, List.getD_cons_succ]
      rw [List.drop_append]
      exact ih tail i (by simpa using hi)

/-- `idxIn` of a member is within the dictionary. -/
theorem idxIn_lt_length : ∀ (d : List (List Nat)) (a : List Nat), a ∈ d →
    idxIn d a < d.length := by
  intro d
  induction d with
  | nil => intro a ha; simp at ha
  | cons x xs ih =>
    intro a ha
    unfold idxIn
    split
    · simp
    · rename_i hne
      have : a ∈ xs := by
        rcases List.mem_cons.mp ha with rfl | h
        · exact absurd rfl hne
        · exact h
      simpa using ih a this

/-- The dictionary entry at `idxIn d a` is `a` itself. -/
theorem getD_idxIn : ∀ (d : List (List Nat)) (a : List Nat), a ∈ d →
    d.getD (idxIn d a) [] = a := by
  intro d
  induction d with
  | nil => intro a ha; simp at ha
  | cons x xs ih =>
    intro a ha
    unfold idxIn
    split
    · rename_i h; simpa using h
    · rename_i hne
      have : a ∈ xs := by
        rcases List.mem_cons.mp ha with rfl | h
        · exact absurd rfl hne
        · exact h
      simpa using ih a this

/-!
## The well-formed changeset class

`GoodCS` is the class of storage changesets used for the positive statements:
strictly sorted unique 72-byte keys with byte values below 256, all
incarnations the default sentinel, fewer than 65535 elements (the `uint16`
bucket counters and dictionary count), and at most 255 total value bytes (all
cumulative lengths stay in the uint8 bucket; see C1/C3 for why the other
buckets break the codec).
-/

def GoodCS (cs : List Change) : Prop :=
  (∀ c ∈ cs, c.Key.length = 72 ∧ (∀ x ∈ c.Key, x < 256) ∧ (∀ x ∈ c.Value, x < 256) ∧
    rawIncBytes c = defaultRawInc) ∧
  SortedCh cs ∧ (cs.map (fun c => c.Key)).Nodup ∧
  cs.length < 65535 ∧ (cs.map (fun c => c.Value.length)).sum ≤ 255

/-- The dictionary fold step. -/
def dictStep (acc : List (List Nat)) (c : Change) : List (List Nat) :=
  if addrOf c ∈ acc then acc else acc ++ [addrOf c]

theorem dictOf_eq_foldl (cs : List Change) : dictOf cs = cs.foldl dictStep [] := rfl

/-- Membership in the dictionary fold. -/
theorem dict_foldl_mem : ∀ (cs : List Change) (acc : List (List Nat)) (x : List Nat),
    x ∈ cs.foldl dictStep acc ↔ x ∈ acc ∨ ∃ c ∈ cs, addrOf c = x := by
  intro cs
  induction cs with
  | nil => intro acc x; simp
  | cons c cst ih =>
    intro acc x
    simp only [List.foldl_cons, ih, dictStep]
    constructor
    · rintro (h | h)
      · split at h
        · exact Or.inl h
        · rcases List.mem_append.mp h with h' | h'
          · exact Or.inl h'
          · simp at h'
            exact Or.inr ⟨c, by simp, h'.symm⟩
      · rcases h with ⟨c', hc', hx⟩
        exact Or.inr ⟨c', by simp [hc'], hx⟩
    · rintro (h | h)
      · left
        split
        · exact h
        · exact List.mem_append.mpr (Or.inl h)
      · rcases h with ⟨c', hc', hx⟩
        rcases List.mem_cons.mp hc' with rfl | hc'
        · left
          split
          · rename_i hmem; exact hx ▸ hmem
          · exact List.mem_append.mpr (Or.inr (by simp [hx]))
        · exact Or.inr ⟨c', hc', hx⟩

/-- The dictionary fold keeps the accumulator duplicate-free. -/
theorem dict_foldl_nodup : ∀ (cs : List Change) (acc : List (List Nat)),
    acc.Nodup → (cs.foldl dictStep acc).Nodup := by
  intro cs
  induction cs with
  | nil => intro acc h; exact h
  | cons c cst ih =>
    intro acc h
    simp only [List.foldl_cons]
    apply ih
    unfold dictStep
    split
    · exact h
    · rename_i hmem
      simpa [List.nodup_append] using ⟨h, hmem⟩

/-- The dictionary grows by at most one entry per change. -/
theorem dict_foldl_length : ∀ (cs : List Change) (acc : List (List Nat)),
    (cs.foldl dictStep acc).length ≤ acc.length + cs.length := by
  intro cs
  induction cs with
  | nil => intro acc; simp
  | cons c cst ih =>
    intro acc
    simp only [List.foldl_cons]
    refine le_trans (ih (dictStep acc c)) ?_
    unfold dictStep
    split
    · simp only [List.length_cons]
      omega
    · simp only [List.length_append, List.length_cons, List.length_nil]
      omega

/-- Every change's address is in the dictionary. -/
theorem addrOf_mem_dictOf (cs : List Change) (c : Change) (hc : c ∈ cs) :
    addrOf c ∈ dictOf cs := by
  rw [dictOf_eq_foldl, dict_foldl_mem]
  exact Or.inr ⟨c, hc, rfl⟩

/-- Every dictionary entry is some change's address. -/
theorem mem_dictOf_addr (cs : List Change) (x : List Nat) (hx : x ∈ dictOf cs) :
    ∃ c ∈ cs, addrOf c = x := by
  rw [dictOf_eq_foldl, dict_foldl_mem] at hx
  simpa using hx

/-- The dictionary has no duplicates. -/
theorem dictOf_nodup (cs : List Change) : (dictOf cs).Nodup := by
  rw [dictOf_eq_foldl]
  exact dict_foldl_nodup cs [] List.nodup_nil

/-- At most one dictionary entry per change. -/
theorem dictOf_length_le (cs : List Change) : (dictOf cs).length ≤ cs.length := by
  rw [dictOf_eq_foldl]
  simpa using dict_foldl_length cs []

/-- Under `GoodCS`, dictionary entries are 32 bytes of values below 256. -/
theorem dictOf_entry_shape (cs : List Change) (h : GoodCS cs) :
    ∀ x ∈ dictOf cs, x.length = 32 ∧ ∀ y ∈ x, y < 256 := by
  intro x hx
  rcases mem_dictOf_addr cs x hx with ⟨c, hc, rfl⟩
  rcases h.1 c hc with ⟨hk, hkb, -, -⟩
  constructor
  · simp [addrOf, hk]
  · intro y hy
    exact hkb y (List.mem_of_mem_take hy)

/-- Prefix sums of value lengths. -/
def valSum (cs : List Change) (k : Nat) : Nat :=
  ((cs.take k).map (fun c => c.Value.length)).sum

theorem valSum_succ (cs : List Change) (i : Nat) (hi : i < cs.length) :
    valSum cs (i + 1) = valSum cs i + (cs.getD i default).Value.length := by
  unfold valSum
  have hsome : cs[i]? = some (cs.getD i default) := by
    rw [List.getElem?_eq_getElem hi, List.getD_eq_getElem cs default hi]
  rw [List.take_succ, hsome]
  simp

theorem valSum_mono (cs : List Change) {i j : Nat} (h : i ≤ j) :
    valSum cs i ≤ valSum cs j := by
  unfold valSum
  induction j with
  | zero =>
    have : i = 0 := by omega
    simp [this]
  | succ j ih =>
    by_cases hij : i = j + 1
    · simp [hij]
    · have hle : i ≤ j := by omega
      refine le_trans (ih hle) ?_
      by_cases hj : j < cs.length
      · have := valSum_succ cs j hj
        unfold valSum at this
        omega
      · rw [List.take_of_length_le (by omega), List.take_of_length_le (by omega)]

theorem valSum_le_total (cs : List Change) (k : Nat) :
    valSum cs k ≤ (cs.map (fun c => c.Value.length)).sum := by
  have := valSum_mono cs (Nat.le_refl cs.length)
  have h2 : valSum cs cs.length = (cs.map (fun c => c.Value.length)).sum := by
    unfold valSum
    rw [List.take_length]
  calc valSum cs k ≤ valSum cs (max k cs.length) := valSum_mono cs (Nat.le_max_left _ _)
    _ = (cs.map (fun c => c.Value.length)).sum := by
        by_cases hk : k ≤ cs.length
        · rw [max_eq_right hk] at *
          exact h2
        · unfold valSum
          rw [List.take_of_length_le (by omega)]

/-- The cumulative table has one entry per element. -/
theorem cumsOf_length (cs : List Change) : (cumsOf cs).length = cs.length := by
  simp [cumsOf]

/-- Under `GoodCS` the `uint32` truncation is a no-op and entry `i` is the
prefix sum through element `i`. -/
theorem cumsOf_getD (cs : List Change) (h : GoodCS cs) (i : Nat) (hi : i < cs.length) :
    (cumsOf cs).getD i 0 = valSum cs (i + 1) := by
  unfold cumsOf
  rw [List.getD_eq_getElem _ _ (by simpa using hi), List.getElem_map, List.getElem_range]
  have hle : valSum cs (i + 1) ≤ 255 :=
    le_trans (valSum_le_total cs (i + 1)) h.2.2.2.2
  show valSum cs (i + 1) % 2 ^ 32 = valSum cs (i + 1)
  exact Nat.mod_eq_of_lt (by omega)

/-- Under `GoodCS` every cumulative entry is at most 255. -/
theorem cumsOf_le_255 (cs : List Change) (h : GoodCS cs) :
    ∀ x ∈ cumsOf cs, x ≤ 255 := by
  intro x hx
  unfold cumsOf at hx
  rcases List.mem_map.mp hx with ⟨i, hi, rfl⟩
  refine le_trans (Nat.mod_le _ _) ?_
  exact le_trans (valSum_le_total cs (i + 1)) h.2.2.2.2

/-- Under `GoodCS` every entry lands in the uint8 bucket. -/
theorem n8Of_eq (cs : List Change) (h : GoodCS cs) : n8Of cs = cs.length := by
  unfold n8Of
  rw [List.filter_eq_self.mpr]
  · rw [cumsOf_length]
    exact Nat.mod_eq_of_lt (by have := h.2.2.2.1; omega)
  · intro x hx
    simpa using cumsOf_le_255 cs h x hx

/-- Under `GoodCS` the uint16 bucket is empty. -/
theorem n16Of_eq (cs : List Change) (h : GoodCS cs) : n16Of cs = 0 := by
  unfold n16Of
  rw [List.filter_eq_nil_iff.mpr]
  · rfl
  · intro x hx
    have := cumsOf_le_255 cs h x hx
    simp
    omega

/-- Under `GoodCS` the uint32 bucket is empty. -/
theorem n32Of_eq (cs : List Change) (h : GoodCS cs) : n32Of cs = 0 := by
  unfold n32Of
  rw [List.filter_eq_nil_iff.mpr]
  · rfl
  · intro x hx
    have := cumsOf_le_255 cs h x hx
    simp
    omega

/-- Uint8-bucket entries serialize to themselves. -/
theorem lenEntry_flatten (l : List Nat) (h : ∀ x ∈ l, x ≤ 255) :
    (l.map lenEntry).flatten = l := by
  induction l with
  | nil => rfl
  | cons x xs ih =>
    simp only [List.map_cons, List.flatten_cons]
    rw [ih (fun y hy => h y (by simp [hy]))]
    unfold lenEntry
    rw [if_pos (h x (by simp))]
    rfl

/-- Under `GoodCS` (all incarnations default) no exception record is written. -/
theorem exceptionsOf_eq_nil (cs : List Change) (h : GoodCS cs) : exceptionsOf cs = [] := by
  unfold exceptionsOf
  rw [List.filter_eq_nil_iff.mpr]
  · rfl
  · intro i hi
    have hmem : cs.getD i default ∈ cs := by
      rw [List.getD_eq_getElem _ _ (by simpa using hi)]
      exact List.getElem_mem _
    have hraw : rawIncBytes (cs.getD i default) = defaultRawInc :=
      (h.1 _ hmem).2.2.2
    have hval : ¬ (beVal (rawIncBytes (cs.getD i default)) % 2 ^ 64 ≠ 1) := by
      rw [hraw]
      decide
    simp only [Bool.and_eq_true, decide_eq_true_eq, not_and]
    exact fun _ => hval

/-- Under `GoodCS` the encoder's output in explicit segmented form. -/
theorem encodeSorted_good_eq (cs : List Change) (h : GoodCS cs) :
    encodeSorted cs =
      beBytes 4 cs.length ++ beBytes 2 (dictOf cs).length ++ (dictOf cs).flatten
        ++ (cs.map (rowOf cs (getNumOfBytesByLen (dictOf cs).length))).flatten
        ++ beBytes 2 cs.length ++ beBytes 2 0 ++ beBytes 2 0
        ++ cumsOf cs
        ++ (cs.map (fun c => c.Value)).flatten := by
  unfold encodeSorted
  rw [n8Of_eq cs h, n16Of_eq cs h, n32Of_eq cs h, exceptionsOf_eq_nil cs h,
    lenEntry_flatten (cumsOf cs) (cumsOf_le_255 cs h), List.append_nil]

/-- Flattened fixed-width records have predictable length. -/
theorem flatten_length_const {α : Type} (l : List (List α)) (m : Nat)
    (h : ∀ x ∈ l, x.length = m) : l.flatten.length = m * l.length := by
  induction l with
  | nil => simp
  | cons x xs ih =>
    simp only [List.flatten_cons, List.length_append, List.length_cons]
    rw [h x (by simp), ih (fun y hy => h y (by simp [hy]))]
    ring

/-- Under `GoodCS` each element row is `w + 32` bytes. -/
theorem rowOf_length (cs : List Change) (h : GoodCS cs) (w : Nat) (c : Change) (hc : c ∈ cs) :
    (rowOf cs w c).length = w + 32 := by
  unfold rowOf keyHashOf
  rw [List.length_append, beBytes_length]
  have hk : c.Key.length = 72 := (h.1 c hc).1
  simp [hk]

/-- The concatenated values region is exactly the total value length. -/
theorem valsBytes_length (cs : List Change) :
    ((cs.map (fun c => c.Value)).flatten).length = (cs.map (fun c => c.Value.length)).sum := by
  rw [List.length_flatten, List.map_map]
  rfl

/-- `beVal` of a singleton. -/
theorem beVal_singleton (x : Nat) : beVal [x] = x := by
  simp [beVal]

/-- The header element count reads back. -/
theorem parse_n (cs : List Change) (t : List Nat) (h : GoodCS cs) :
    beVal ((encodeSorted cs ++ t).take 4) = cs.length := by
  rw [encodeSorted_good_eq cs h]
  simp only [List.append_assoc]
  rw [take_append_exact _ _ 4 (beBytes_length 4 _)]
  exact beVal_beBytes_small 4 cs.length (by have := h.2.2.2.1; norm_num; omega)

/-- The dictionary count reads back. -/
theorem parse_dl (cs : List Change) (t : List Nat) (h : GoodCS cs) :
    beVal (((encodeSorted cs ++ t).drop 4).take 2) = (dictOf cs).length := by
  rw [encodeSorted_good_eq cs h]
  simp only [List.append_assoc]
  rw [drop_append_exact _ _ 4 (beBytes_length 4 _)]
  rw [take_append_exact _ _ 2 (beBytes_length 2 _)]
  refine beVal_beBytes_small 2 _ ?_
  have h1 := dictOf_length_le cs
  have h2 := h.2.2.2.1
  norm_num
  omega

/-- Dropping the header, dictionary and rows lands on the bucket counters. -/
theorem parse_dropP (cs : List Change) (t : List Nat) (h : GoodCS cs) :
    (encodeSorted cs ++ t).drop
        (4 + 2 + (dictOf cs).length * 32
          + cs.length * (getNumOfBytesByLen (dictOf cs).length + 32)) =
      beBytes 2 cs.length ++ (beBytes 2 0 ++ (beBytes 2 0 ++ (cumsOf cs
        ++ ((cs.map (fun c => c.Value)).flatten ++ t)))) := by
  rw [encodeSorted_good_eq cs h]
  simp only [List.append_assoc]
  have hd : ((dictOf cs).flatten).length = 32 * (dictOf cs).length :=
    flatten_length_const _ 32 (fun x hx => (dictOf_entry_shape cs h x hx).1)
  have hr : ((cs.map (rowOf cs (getNumOfBytesByLen (dictOf cs).length))).flatten).length
      = (getNumOfBytesByLen (dictOf cs).length + 32) * cs.length := by
    rw [flatten_length_const _ (getNumOfBytesByLen (dictOf cs).length + 32)]
    · simp
    · intro x hx
      rcases List.mem_map.mp hx with ⟨c, hc, rfl⟩
      exact rowOf_length cs h _ c hc
  have e1 : 4 + 2 + (dictOf cs).length * 32
        + cs.length * (getNumOfBytesByLen (dictOf cs).length + 32)
      = (beBytes 4 cs.length).length
        + (2 + (dictOf cs).length * 32
            + cs.length * (getNumOfBytesByLen (dictOf cs).length + 32)) := by
    rw [beBytes_length]
    ring
  rw [e1, List.drop_append]
  have e2 : 2 + (dictOf cs).length * 32
        + cs.length * (getNumOfBytesByLen (dictOf cs).length + 32)
      = (beBytes 2 (dictOf cs).length).length
        + ((dictOf cs).length * 32
            + cs.length * (getNumOfBytesByLen (dictOf cs).length + 32)) := by
    rw [beBytes_length]
    ring
  rw [e2, List.drop_append]
  have e3 : (dictOf cs).length * 32
        + cs.length * (getNumOfBytesByLen (dictOf cs).length + 32)
      = ((dictOf cs).flatten).length
        + cs.length * (getNumOfBytesByLen (dictOf cs).length + 32) := by
    rw [hd]
    ring
  rw [e3, List.drop_append]
  have e4 : cs.length * (getNumOfBytesByLen (dictOf cs).length + 32)
      = ((cs.map (rowOf cs (getNumOfBytesByLen (dictOf cs).length))).flatten).length + 0 := by
    rw [hr]
    ring
  rw [e4, List.drop_append]
  rfl

/-- Total encoded length. -/
theorem parse_len (cs : List Change) (t : List Nat) (h : GoodCS cs) :
    (encodeSorted cs ++ t).length =
      4 + 2 + (dictOf cs).length * 32
        + cs.length * (getNumOfBytesByLen (dictOf cs).length + 32)
        + 6 + cs.length + (cs.map (fun c => c.Value.length)).sum + t.length := by
  rw [encodeSorted_good_eq cs h]
  have hd : ((dictOf cs).flatten).length = 32 * (dictOf cs).length :=
    flatten_length_const _ 32 (fun x hx => (dictOf_entry_shape cs h x hx).1)
  have hr : ((cs.map (rowOf cs (getNumOfBytesByLen (dictOf cs).length))).flatten).length
      = (getNumOfBytesByLen (dictOf cs).length + 32) * cs.length := by
    rw [flatten_length_const _ (getNumOfBytesByLen (dictOf cs).length + 32)]
    · simp
    · intro x hx
      rcases List.mem_map.mp hx with ⟨c, hc, rfl⟩
      exact rowOf_length cs h _ c hc
  simp only [List.length_append, beBytes_length, hd, hr, cumsOf_length,
    valsBytes_length]
  ring

/-- The uint8 counter reads back as the element count. -/
theorem parse_n8 (cs : List Change) (t : List Nat) (h : GoodCS cs) :
    beVal (((encodeSorted cs ++ t).drop
        (4 + 2 + (dictOf cs).length * 32
          + cs.length * (getNumOfBytesByLen (dictOf cs).length + 32))).take 2)
      = cs.length := by
  rw [parse_dropP cs t h, take_append_exact _ _ 2 (beBytes_length 2 _)]
  exact beVal_beBytes_small 2 cs.length (by have := h.2.2.2.1; norm_num; omega)

/-- The uint16 counter reads back as zero. -/
theorem parse_n16 (cs : List Change) (t : List Nat) (h : GoodCS cs) :
    beVal (((encodeSorted cs ++ t).drop
        (4 + 2 + (dictOf cs).length * 32
          + cs.length * (getNumOfBytesByLen (dictOf cs).length + 32) + 2)).take 2)
      = 0 := by
  rw [← List.drop_drop, parse_dropP cs t h,
    drop_append_exact _ _ 2 (beBytes_length 2 _),
    take_append_exact _ _ 2 (beBytes_length 2 _)]
  exact beVal_beBytes_small 2 0 (by norm_num)

/-- The uint32 counter reads back as zero. -/
theorem parse_n32 (cs : List Change) (t : List Nat) (h : GoodCS cs) :
    beVal (((encodeSorted cs ++ t).drop
        (4 + 2 + (dictOf cs).length * 32
          + cs.length * (getNumOfBytesByLen (dictOf cs).length + 32) + 4)).take 2)
      = 0 := by
  rw [← List.drop_drop, parse_dropP cs t h,
    show (4 : Nat) = (beBytes 2 cs.length).length + 2 by rw [beBytes_length],
    List.drop_append,
    drop_append_exact _ _ 2 (beBytes_length 2 _),
    take_append_exact _ _ 2 (beBytes_length 2 _)]
  exact beVal_beBytes_small 2 0 (by norm_num)

/-- Dropping the counters too lands on the cumulative-length table. -/
theorem parse_dropLenPos (cs : List Change) (t : List Nat) (h : GoodCS cs) :
    (encodeSorted cs ++ t).drop
        (4 + 2 + (dictOf cs).length * 32
          + cs.length * (getNumOfBytesByLen (dictOf cs).length + 32) + 6)
      = cumsOf cs ++ ((cs.map (fun c => c.Value)).flatten ++ t) := by
  rw [← List.drop_drop, parse_dropP cs t h,
    show (6 : Nat) = (beBytes 2 cs.length).length + 4 by rw [beBytes_length],
    List.drop_append,
    show (4 : Nat) = (beBytes 2 (0 : Nat)).length + 2 by rw [beBytes_length],
    List.drop_append,
    drop_append_exact _ _ 2 (beBytes_length 2 _)]

/-- The incarnation-exception offset computed from the last cumulative entry:
total value bytes plus one table byte per element. -/
theorem calcIncPos_good (cs : List Change) (t : List Nat) (h : GoodCS cs) (hne : cs ≠ []) :
    calculateIncarnationPos3 (cumsOf cs ++ ((cs.map (fun c => c.Value)).flatten ++ t))
        cs.length 0 0
      = (cs.map (fun c => c.Value.length)).sum + cs.length := by
  have hn : 0 < cs.length := List.length_pos.mpr hne
  have hcl : (cumsOf cs).length = cs.length := cumsOf_length cs
  have hsingle : (cumsOf cs).drop (cs.length - 1)
      = [(cs.map (fun c => c.Value.length)).sum] := by
    have hlt : cs.length - 1 < (cumsOf cs).length := by omega
    rw [List.drop_eq_getElem_cons hlt]
    have h2 : (cumsOf cs).drop (cs.length - 1 + 1) = [] := by
      apply List.drop_eq_nil_of_le
      omega
    rw [h2]
    have h3 : (cumsOf cs)[cs.length - 1] = (cumsOf cs).getD (cs.length - 1) 0 := by
      rw [List.getD_eq_getElem _ _ hlt]
    rw [h3, cumsOf_getD cs h (cs.length - 1) (by omega)]
    have h4 : cs.length - 1 + 1 = cs.length := by omega
    rw [h4]
    have h5 : valSum cs cs.length = (cs.map (fun c => c.Value.length)).sum := by
      unfold valSum
      rw [List.take_length]
    rw [h5]
  unfold calculateIncarnationPos3
  rw [if_neg (by omega), if_neg (by omega), if_pos (by omega)]
  rw [List.drop_append_of_le_length (by omega)]
  rw [hsingle, take_append_exact _ _ 1 (by simp), beVal_singleton]

/-- The dictionary width is at least one byte. -/
theorem getNumOfBytesByLen_pos (n : Nat) : 1 ≤ getNumOfBytesByLen n := by
  unfold getNumOfBytesByLen
  split_ifs
  all_goals norm_num

set_option maxHeartbeats 2000000 in
/-- `DecodeStorage` rejects a trailing region that is not a multiple of 12
bytes with the structural incarnation error (reached before any element is
decoded, so it can neither crash nor succeed). -/
theorem decodeStorage_trailing_not_mult12 (cs : List Change) (t : List Nat)
    (h : GoodCS cs) (hne : cs ≠ []) (ht : t.length % 12 ≠ 0) :
    DecodeStorage (encodeSorted cs ++ t) = .errIncarnation := by
  have hn : 0 < cs.length := List.length_pos.mpr hne
  have hlen := parse_len cs t h
  have hw := getNumOfBytesByLen_pos (dictOf cs).length
  have ht0 : 0 < t.length := by omega
  have h0 : ¬ ((encodeSorted cs ++ t).length = 0) := by omega
  have h1 : ¬ ((encodeSorted cs ++ t).length < 4) := by omega
  unfold DecodeStorage
  rw [if_neg h0, if_neg h1]
  simp only [parse_n cs t h, parse_dl cs t h, parse_n8 cs t h, parse_n16 cs t h,
    parse_n32 cs t h, parse_dropLenPos cs t h]
  have h2 : ¬ (cs.length = 0) := by omega
  rw [if_neg h2, calcIncPos_good cs t h hne]
  rw [if_pos (by refine ⟨by omega, by omega⟩)]

set_option maxHeartbeats 2000000 in
/-- `StorageChangeSetBytes.Walk` rejects the same malformed trailing region
with the structural incarnation error before visiting any element. -/
theorem walkSCS_trailing_not_mult12 (cs : List Change) (t : List Nat)
    (h : GoodCS cs) (hne : cs ≠ []) (ht : t.length % 12 ≠ 0) :
    WalkSCS (encodeSorted cs ++ t) = .errIncarnation := by
  have hn : 0 < cs.length := List.length_pos.mpr hne
  have hlen := parse_len cs t h
  have hw := getNumOfBytesByLen_pos (dictOf cs).length
  have ht0 : 0 < t.length := by omega
  have h0 : ¬ ((encodeSorted cs ++ t).length = 0) := by omega
  have h1 : ¬ ((encodeSorted cs ++ t).length < 8) := by omega
  unfold WalkSCS
  rw [if_neg h0, if_neg h1]
  simp only [parse_n cs t h, parse_dl cs t h, parse_n8 cs t h, parse_n16 cs t h,
    parse_n32 cs t h, parse_dropLenPos cs t h]
  have h2 : ¬ (cs.length = 0) := by omega
  rw [if_neg h2, calcIncPos_good cs t h hne]
  rw [if_pos (by refine ⟨by omega, by omega⟩)]

/-- C8: for every well-formed encoded storage changeset with a trailing
incarnation-exceptions region whose length is not a multiple of 12 bytes,
both `DecodeStorage` and `StorageChangeSetBytes.Walk` return the structural
incarnation-decode error — they neither crash nor silently succeed. -/
theorem trailing_region_not_mult12_errors (cs : List Change) (t : List Nat)
    (h : GoodCS cs) (hne : cs ≠ []) (ht : t.length % 12 ≠ 0) :
    DecodeStorage (encodeSorted cs ++ t) = .errIncarnation ∧
    WalkSCS (encodeSorted cs ++ t) = .errIncarnation :=
  ⟨decodeStorage_trailing_not_mult12 cs t h hne ht,
   walkSCS_trailing_not_mult12 cs t h hne ht⟩

/-- Witness for C8 at a one-change set with a single trailing byte. -/
theorem trailing_region_not_mult12_errors_witness :
    GoodCS [⟨List.replicate 32 3 ++ defaultRawInc ++ List.replicate 32 4, [9]⟩] ∧
    DecodeStorage
        (encodeSorted [⟨List.replicate 32 3 ++ defaultRawInc ++ List.replicate 32 4, [9]⟩] ++ [0])
      = .errIncarnation :=
  ⟨by unfold GoodCS SortedCh rawIncBytes; decide,
    (trailing_region_not_mult12_errors
      [⟨List.replicate 32 3 ++ defaultRawInc ++ List.replicate 32 4, [9]⟩] [0]
      (by unfold GoodCS SortedCh rawIncBytes; decide) (by decide) (by decide)).1⟩

/-- `find?` returns the unique satisfying element. -/
theorem find?_eq_some_of_unique {α : Type} (l : List α) (p : α → Bool) (x : α)
    (hx : x ∈ l) (hpx : p x = true) (huniq : ∀ y ∈ l, p y = true → y = x) :
    l.find? p = some x := by
  induction l with
  | nil => simp at hx
  | cons z zs ih =>
    by_cases hz : p z = true
    · rw [List.find?_cons_of_pos _ hz, huniq z (by simp) hz]
    · rw [List.find?_cons_of_neg _ hz]
      have hxz : x ∈ zs := by
        rcases List.mem_cons.mp hx with rfl | hm
        · exact absurd hpx hz
        · exact hm
      exact ih hxz (fun y hy hp => huniq y (by simp [hy]) hp)

/-- Under `GoodCS` the key splits into address, incarnation and storage-key
segments. -/
theorem key_decomp (cs : List Change) (h : GoodCS cs) (c : Change) (hc : c ∈ cs) :
    c.Key = addrOf c ++ (rawIncBytes c ++ keyHashOf c) := by
  have hk : c.Key.length = 72 := (h.1 c hc).1
  unfold addrOf rawIncBytes keyHashOf
  have h1 : c.Key.take 32 ++ c.Key.drop 32 = c.Key := List.take_append_drop 32 c.Key
  have h2 : (c.Key.drop 32).take 8 ++ (c.Key.drop 32).drop 8 = c.Key.drop 32 :=
    List.take_append_drop 8 (c.Key.drop 32)
  have h3 : (c.Key.drop 32).drop 8 = c.Key.drop 40 := by
    rw [List.drop_drop]
  have h4 : (c.Key.drop 40).take 32 = c.Key.drop 40 := by
    apply List.take_of_length_le
    simp [hk]
  rw [h4]
  calc c.Key = c.Key.take 32 ++ c.Key.drop 32 := h1.symm
    _ = c.Key.take 32 ++ ((c.Key.drop 32).take 8 ++ (c.Key.drop 32).drop 8) := by rw [h2]
    _ = c.Key.take 32 ++ ((c.Key.drop 32).take 8 ++ c.Key.drop 40) := by rw [h3]

/-- `idxIn` is injective on dictionary members. -/
theorem idxIn_inj (d : List (List Nat)) (x y : List Nat) (hx : x ∈ d) (hy : y ∈ d)
    (he : idxIn d x = idxIn d y) : x = y := by
  have h1 := getD_idxIn d x hx
  have h2 := getD_idxIn d y hy
  rw [he] at h1
  rw [← h1, h2]

/-- The dictionary count fits the chosen index width (for counts in the Go
`int` range). -/
theorem lt_pow_getNumOfBytesByLen (m : Nat) (hm : m < 2 ^ 63) :
    m < 256 ^ getNumOfBytesByLen m := by
  unfold getNumOfBytesByLen
  split_ifs with h1 h2 h3
  · norm_num
    omega
  · norm_num
    omega
  · norm_num
    omega
  · norm_num
    omega

/-- Reading back one cumulative entry. -/
theorem readBE_cums (cs : List Change) (h : GoodCS cs) (j : Nat) (hj : j < cs.length) :
    readBE (cumsOf cs) (j : Int) 1 = some (valSum cs (j + 1)) := by
  have hcl : (cumsOf cs).length = cs.length := cumsOf_length cs
  unfold readBE
  rw [if_pos (show (0 : Int) ≤ (j : Int) ∧ ((j : Int)).toNat + 1 ≤ (cumsOf cs).length from
    ⟨Int.natCast_nonneg j, by rw [Int.toNat_natCast]; omega⟩)]
  have hlt : j < (cumsOf cs).length := by omega
  rw [Int.toNat_natCast, List.drop_eq_getElem_cons hlt]
  simp only [List.take_succ_cons, List.take_zero]
  rw [beVal_singleton]
  rw [show (cumsOf cs)[j] = (cumsOf cs).getD j 0 from (List.getD_eq_getElem _ _ hlt).symm]
  rw [cumsOf_getD cs h j hj]

/-- `findVal` in the uint8 bucket returns exactly the `j`-th value. -/
theorem findVal_good (cs : List Change) (h : GoodCS cs) (j : Nat) (hj : j < cs.length) :
    findVal (cumsOf cs) ((cs.map (fun c => c.Value)).flatten) j cs.length 0 0
      = some ((cs.getD j default).Value) := by
  have hvl : ((cs.map (fun c => c.Value)).flatten).length
      = (cs.map (fun c => c.Value.length)).sum := valsBytes_length cs
  have hse : valSum cs (j + 1) = valSum cs j + (cs.getD j default).Value.length :=
    valSum_succ cs j hj
  have hmono : valSum cs j ≤ valSum cs (j + 1) := valSum_mono cs (by omega)
  have htot : valSum cs (j + 1) ≤ (cs.map (fun c => c.Value.length)).sum :=
    valSum_le_total cs (j + 1)
  have hslice : sliceVals ((cs.map (fun c => c.Value)).flatten)
      (valSum cs j) (valSum cs (j + 1)) = some ((cs.getD j default).Value) := by
    unfold sliceVals
    rw [if_pos (by omega)]
    have hsum : valSum cs j = (((cs.map (fun c => c.Value)).take j).map List.length).sum := by
      unfold valSum
      simp only [List.map_take, List.map_map]
      congr 1
    have hgd : (cs.map (fun c => c.Value)).getD j [] = (cs.getD j default).Value := by
      rw [List.getD_eq_getElem _ _ (by simpa using hj), List.getElem_map,
        ← List.getD_eq_getElem cs default hj]
    have hext := flatten_segment_extract (cs.map (fun c => c.Value)) [] j (by simpa using hj)
    rw [List.append_nil, hgd] at hext
    rw [show valSum cs (j + 1) - valSum cs j = (cs.getD j default).Value.length from by omega]
    rw [← hsum] at hext
    exact congrArg some hext
  unfold findVal
  rw [if_pos hj]
  rw [readBE_cums cs h j hj]
  by_cases hj0 : 0 < j
  · rw [if_pos hj0]
    have hcast : ((j : Int) - 1) = ((j - 1 : Nat) : Int) := by omega
    rw [hcast, readBE_cums cs h (j - 1) (by omega)]
    rw [show j - 1 + 1 = j from by omega]
    exact hslice
  · rw [if_neg hj0]
    have hj0' : j = 0 := by omega
    subst hj0'
    have h0 : valSum cs 0 = 0 := by
      unfold valSum
      simp
    rw [← h0]
    exact hslice

/-- Dropping the header lands on the dictionary bytes. -/
theorem parse_drop6 (cs : List Change) (t : List Nat) (h : GoodCS cs) :
    (encodeSorted cs ++ t).drop 6
      = (dictOf cs).flatten
        ++ ((cs.map (rowOf cs (getNumOfBytesByLen (dictOf cs).length))).flatten
          ++ (beBytes 2 cs.length ++ (beBytes 2 0 ++ (beBytes 2 0 ++ (cumsOf cs
            ++ ((cs.map (fun c => c.Value)).flatten ++ t)))))) := by
  rw [encodeSorted_good_eq cs h]
  simp only [List.append_assoc]
  rw [show (6 : Nat) = (beBytes 4 cs.length).length + 2 by rw [beBytes_length],
    List.drop_append,
    drop_append_exact _ _ 2 (beBytes_length 2 _)]

/-- Reading dictionary entry `i`. -/
theorem parse_dictEntry (cs : List Change) (t : List Nat) (h : GoodCS cs)
    (i : Nat) (hi : i < (dictOf cs).length) :
    ((encodeSorted cs ++ t).drop (4 + 2 + i * 32)).take 32 = (dictOf cs).getD i [] := by
  rw [show 4 + 2 + i * 32 = 6 + i * 32 from by ring, ← List.drop_drop, parse_drop6 cs t h]
  exact flatten_record_extract (dictOf cs) _ 32 i
    (fun x hx => (dictOf_entry_shape cs h x hx).1) hi

/-- Dropping the header and dictionary lands on the element rows. -/
theorem parse_dropRows (cs : List Change) (t : List Nat) (h : GoodCS cs) :
    (encodeSorted cs ++ t).drop (4 + 2 + (dictOf cs).length * 32)
      = (cs.map (rowOf cs (getNumOfBytesByLen (dictOf cs).length))).flatten
        ++ (beBytes 2 cs.length ++ (beBytes 2 0 ++ (beBytes 2 0 ++ (cumsOf cs
          ++ ((cs.map (fun c => c.Value)).flatten ++ t))))) := by
  have hd : ((dictOf cs).flatten).length = 32 * (dictOf cs).length :=
    flatten_length_const _ 32 (fun x hx => (dictOf_entry_shape cs h x hx).1)
  rw [show 4 + 2 + (dictOf cs).length * 32 = 6 + (dictOf cs).length * 32 from by ring,
    ← List.drop_drop, parse_drop6 cs t h,
    drop_append_exact _ _ ((dictOf cs).length * 32) (by rw [hd]; ring)]

/-- The `j`-th element row (with everything after the rows as tail). -/
theorem parse_row (cs : List Change) (t : List Nat) (h : GoodCS cs)
    (j : Nat) (hj : j < cs.length) :
    ((encodeSorted cs ++ t).drop (4 + 2 + (dictOf cs).length * 32
        + j * (getNumOfBytesByLen (dictOf cs).length + 32))).take
          (getNumOfBytesByLen (dictOf cs).length + 32)
      = rowOf cs (getNumOfBytesByLen (dictOf cs).length) (cs.getD j default) := by
  rw [show 4 + 2 + (dictOf cs).length * 32
        + j * (getNumOfBytesByLen (dictOf cs).length + 32)
      = (4 + 2 + (dictOf cs).length * 32)
        + j * (getNumOfBytesByLen (dictOf cs).length + 32) from by ring,
    ← List.drop_drop, parse_dropRows cs t h]
  have hext := flatten_record_extract
    (cs.map (rowOf cs (getNumOfBytesByLen (dictOf cs).length)))
    (beBytes 2 cs.length ++ (beBytes 2 0 ++ (beBytes 2 0 ++ (cumsOf cs
      ++ ((cs.map (fun c => c.Value)).flatten ++ t)))))
    (getNumOfBytesByLen (dictOf cs).length + 32) j
    (by
      intro x hx
      rcases List.mem_map.mp hx with ⟨c, hc, rfl⟩
      exact rowOf_length cs h _ c hc)
    (by simpa using hj)
  rw [hext]
  rw [List.getD_eq_getElem _ _ (by simpa using hj), List.getElem_map,
    ← List.getD_eq_getElem cs default hj]

/-- Reading the dictionary index of element row `j`. -/
theorem parse_rowId (cs : List Change) (t : List Nat) (h : GoodCS cs)
    (j : Nat) (hj : j < cs.length) :
    ((encodeSorted cs ++ t).drop (4 + 2 + (dictOf cs).length * 32
        + j * (getNumOfBytesByLen (dictOf cs).length + 32))).take
          (getNumOfBytesByLen (dictOf cs).length)
      = beBytes (getNumOfBytesByLen (dictOf cs).length)
          (idxIn (dictOf cs) (addrOf (cs.getD j default))) := by
  have hrow := parse_row cs t h j hj
  have htt : ((encodeSorted cs ++ t).drop (4 + 2 + (dictOf cs).length * 32
        + j * (getNumOfBytesByLen (dictOf cs).length + 32))).take
          (getNumOfBytesByLen (dictOf cs).length)
      = (((encodeSorted cs ++ t).drop (4 + 2 + (dictOf cs).length * 32
          + j * (getNumOfBytesByLen (dictOf cs).length + 32))).take
            (getNumOfBytesByLen (dictOf cs).length + 32)).take
          (getNumOfBytesByLen (dictOf cs).length) := by
    rw [List.take_take]
    congr 1
    omega
  rw [htt, hrow]
  unfold rowOf
  exact take_append_exact _ _ _ (beBytes_length _ _)

/-- Reading the storage-key hash of element row `j`. -/
theorem parse_rowKey (cs : List Change) (t : List Nat) (h : GoodCS cs)
    (j : Nat) (hj : j < cs.length) :
    ((encodeSorted cs ++ t).drop (4 + 2 + (dictOf cs).length * 32
        + j * (getNumOfBytesByLen (dictOf cs).length + 32)
        + getNumOfBytesByLen (dictOf cs).length)).take 32
      = keyHashOf (cs.getD j default) := by
  have hrow := parse_row cs t h j hj
  set X := (encodeSorted cs ++ t).drop (4 + 2 + (dictOf cs).length * 32
      + j * (getNumOfBytesByLen (dictOf cs).length + 32)) with hX
  have hdd : (encodeSorted cs ++ t).drop (4 + 2 + (dictOf cs).length * 32
        + j * (getNumOfBytesByLen (dictOf cs).length + 32)
        + getNumOfBytesByLen (dictOf cs).length)
      = X.drop (getNumOfBytesByLen (dictOf cs).length) := by
    rw [hX, List.drop_drop]
  rw [hdd]
  have hdt : (X.take (getNumOfBytesByLen (dictOf cs).length + 32)).drop
        (getNumOfBytesByLen (dictOf cs).length)
      = (X.drop (getNumOfBytesByLen (dictOf cs).length)).take 32 := by
    rw [List.drop_take]
    congr 1
    omega
  rw [← hdt, hrow]
  unfold rowOf
  rw [drop_append_exact _ _ _ (beBytes_length _ _)]

/-- The linear dictionary scan finds a present address hash at its
dictionary index. -/
theorem dict_find_some (cs : List Change) (h : GoodCS cs) (a : List Nat)
    (ha : a ∈ dictOf cs) :
    (List.range (dictOf cs).length).find?
        (fun i => decide (((encodeSorted cs).drop (4 + 2 + i * 32)).take 32 = a))
      = some (idxIn (dictOf cs) a) := by
  have pde : ∀ i, i < (dictOf cs).length →
      ((encodeSorted cs).drop (4 + 2 + i * 32)).take 32 = (dictOf cs).getD i [] := by
    intro i hi
    have := parse_dictEntry cs [] h i hi
    rwa [List.append_nil] at this
  apply find?_eq_some_of_unique
  · exact List.mem_range.mpr (idxIn_lt_length _ a ha)
  · rw [decide_eq_true_eq, pde _ (idxIn_lt_length _ a ha), getD_idxIn _ a ha]
  · intro y hy hp
    have hylt : y < (dictOf cs).length := List.mem_range.mp hy
    rw [decide_eq_true_eq, pde y hylt] at hp
    have hidx : idxIn (dictOf cs) a < (dictOf cs).length := idxIn_lt_length _ a ha
    have hnd := dictOf_nodup cs
    have hgetD : (dictOf cs).getD y [] = (dictOf cs).getD (idxIn (dictOf cs) a) [] := by
      rw [hp, getD_idxIn _ a ha]
    rw [List.getD_eq_getElem _ _ hylt, List.getD_eq_getElem _ _ hidx] at hgetD
    exact hnd.getElem_inj_iff.mp hgetD

/-- The linear dictionary scan misses an absent address hash. -/
theorem dict_find_none (cs : List Change) (h : GoodCS cs) (a : List Nat)
    (ha : a ∉ dictOf cs) :
    (List.range (dictOf cs).length).find?
        (fun i => decide (((encodeSorted cs).drop (4 + 2 + i * 32)).take 32 = a))
      = none := by
  rw [List.find?_eq_none]
  intro i hi
  have hilt : i < (dictOf cs).length := List.mem_range.mp hi
  have pde := parse_dictEntry cs [] h i hilt
  rw [List.append_nil] at pde
  simp only [pde, decide_eq_true_eq]
  intro hcon
  apply ha
  rw [← hcon]
  rw [List.getD_eq_getElem _ _ hilt]
  exact List.getElem_mem _

/-- The linear row scan finds the (unique) matching element row. -/
theorem row_find_some (cs : List Change) (h : GoodCS cs) (a k : List Nat)
    (j0 : Nat) (hj0 : j0 < cs.length)
    (haddr : addrOf (cs.getD j0 default) = a)
    (hkey : keyHashOf (cs.getD j0 default) = k) :
    (List.range cs.length).find? (fun i =>
        decide (((encodeSorted cs).drop (4 + 2 + (dictOf cs).length * 32
            + i * (getNumOfBytesByLen (dictOf cs).length + 32))).take
              (getNumOfBytesByLen (dictOf cs).length)
          = beBytes (getNumOfBytesByLen (dictOf cs).length) (idxIn (dictOf cs) a))
        && decide (((encodeSorted cs).drop (4 + 2 + (dictOf cs).length * 32
            + i * (getNumOfBytesByLen (dictOf cs).length + 32)
            + getNumOfBytesByLen (dictOf cs).length)).take 32 = k))
      = some j0 := by
  have prid : ∀ j, j < cs.length →
      ((encodeSorted cs).drop (4 + 2 + (dictOf cs).length * 32
          + j * (getNumOfBytesByLen (dictOf cs).length + 32))).take
            (getNumOfBytesByLen (dictOf cs).length)
        = beBytes (getNumOfBytesByLen (dictOf cs).length)
            (idxIn (dictOf cs) (addrOf (cs.getD j default))) := by
    intro j hj
    have := parse_rowId cs [] h j hj
    rwa [List.append_nil] at this
  have prk : ∀ j, j < cs.length →
      ((encodeSorted cs).drop (4 + 2 + (dictOf cs).length * 32
          + j * (getNumOfBytesByLen (dictOf cs).length + 32)
          + getNumOfBytesByLen (dictOf cs).length)).take 32
        = keyHashOf (cs.getD j default) := by
    intro j hj
    have := parse_rowKey cs [] h j hj
    rwa [List.append_nil] at this
  apply find?_eq_some_of_unique
  · exact List.mem_range.mpr hj0
  · rw [Bool.and_eq_true, decide_eq_true_eq, decide_eq_true_eq]
    refine ⟨?_, ?_⟩
    · rw [prid j0 hj0, haddr]
    · rw [prk j0 hj0, hkey]
  · intro y hy hp
    have hylt : y < cs.length := List.mem_range.mp hy
    rw [Bool.and_eq_true, decide_eq_true_eq, decide_eq_true_eq] at hp
    rcases hp with ⟨hpid, hpk⟩
    rw [prid y hylt] at hpid
    rw [prk y hylt] at hpk
    have hyc : cs.getD y default ∈ cs := by
      rw [List.getD_eq_getElem _ _ hylt]
      exact List.getElem_mem _
    have hj0c : cs.getD j0 default ∈ cs := by
      rw [List.getD_eq_getElem _ _ hj0]
      exact List.getElem_mem _
    have hamem : a ∈ dictOf cs := by
      rw [← haddr]
      exact addrOf_mem_dictOf cs _ hj0c
    have hymem : addrOf (cs.getD y default) ∈ dictOf cs := addrOf_mem_dictOf cs _ hyc
    have hwid : (dictOf cs).length < 2 ^ 63 := by
      have h1 := dictOf_length_le cs
      have h2 := h.2.2.2.1
      norm_num
      omega
    have hlt := lt_pow_getNumOfBytesByLen (dictOf cs).length hwid
    have hidx : idxIn (dictOf cs) (addrOf (cs.getD y default)) = idxIn (dictOf cs) a := by
      have hbv := congrArg beVal hpid
      rw [beVal_beBytes_small _ _ (by
            have := idxIn_lt_length _ _ hymem
            omega),
          beVal_beBytes_small _ _ (by
            have := idxIn_lt_length _ a hamem
            omega)] at hbv
      exact hbv
    have haddr_y : addrOf (cs.getD y default) = a := idxIn_inj _ _ _ hymem hamem hidx
    have hkeys : (cs.getD y default).Key = (cs.getD j0 default).Key := by
      rw [key_decomp cs h _ hyc, key_decomp cs h _ hj0c]
      rw [haddr_y, haddr, (h.1 _ hyc).2.2.2, (h.1 _ hj0c).2.2.2, hpk, hkey]
    have hnd := h.2.2.1
    have hylt2 : y < (cs.map (fun c => c.Key)).length := by simpa using hylt
    have hj02 : j0 < (cs.map (fun c => c.Key)).length := by simpa using hj0
    have hget : (cs.map (fun c => c.Key)).get ⟨y, hylt2⟩
        = (cs.map (fun c => c.Key)).get ⟨j0, hj02⟩ := by
      simp only [List.get_eq_getElem, List.getElem_map]
      rw [← List.getD_eq_getElem cs default hylt, ← List.getD_eq_getElem cs default hj0]
      exact hkeys
    have hget2 := hget
    simp only [List.get_eq_getElem] at hget2
    exact hnd.getElem_inj_iff.mp hget2

/-- The linear row scan misses when no element matches the queried pair. -/
theorem row_find_none (cs : List Change) (h : GoodCS cs) (a k : List Nat)
    (hamem : a ∈ dictOf cs)
    (hno : ∀ c ∈ cs, ¬ (addrOf c = a ∧ keyHashOf c = k)) :
    (List.range cs.length).find? (fun i =>
        decide (((encodeSorted cs).drop (4 + 2 + (dictOf cs).length * 32
            + i * (getNumOfBytesByLen (dictOf cs).length + 32))).take
              (getNumOfBytesByLen (dictOf cs).length)
          = beBytes (getNumOfBytesByLen (dictOf cs).length) (idxIn (dictOf cs) a))
        && decide (((encodeSorted cs).drop (4 + 2 + (dictOf cs).length * 32
            + i * (getNumOfBytesByLen (dictOf cs).length + 32)
            + getNumOfBytesByLen (dictOf cs).length)).take 32 = k))
      = none := by
  rw [List.find?_eq_none]
  intro y hy
  have hylt : y < cs.length := List.mem_range.mp hy
  have prid := parse_rowId cs [] h y hylt
  have prk := parse_rowKey cs [] h y hylt
  rw [List.append_nil] at prid prk
  simp only [prid, prk, Bool.and_eq_true, decide_eq_true_eq, not_and]
  intro hpid hpk
  have hyc : cs.getD y default ∈ cs := by
    rw [List.getD_eq_getElem _ _ hylt]
    exact List.getElem_mem _
  have hymem : addrOf (cs.getD y default) ∈ dictOf cs := addrOf_mem_dictOf cs _ hyc
  have hwid : (dictOf cs).length < 2 ^ 63 := by
    have h1 := dictOf_length_le cs
    have h2 := h.2.2.2.1
    norm_num
    omega
  have hlt := lt_pow_getNumOfBytesByLen (dictOf cs).length hwid
  have hidx : idxIn (dictOf cs) (addrOf (cs.getD y default)) = idxIn (dictOf cs) a := by
    have hbv := congrArg beVal hpid
    rw [beVal_beBytes_small _ _ (by
          have := idxIn_lt_length _ _ hymem
          omega),
        beVal_beBytes_small _ _ (by
          have := idxIn_lt_length _ a hamem
          omega)] at hbv
    exact hbv
  have haddr_y : addrOf (cs.getD y default) = a := idxIn_inj _ _ _ hymem hamem hidx
  exact absurd ⟨haddr_y, hpk⟩ (hno _ hyc)

/-- The codec's width is always one of the enumerated widths. -/
theorem getNumOfBytesByLen_valid (m : Nat) :
    getNumOfBytesByLen m = 1 ∨ getNumOfBytesByLen m = 2 ∨
    getNumOfBytesByLen m = 4 ∨ getNumOfBytesByLen m = 8 := by
  unfold getNumOfBytesByLen
  split_ifs
  all_goals simp

/-- `writeKeyRow` succeeds on the codec's width. -/
theorem writeKeyRow_getNum (id m : Nat) :
    writeKeyRow id (getNumOfBytesByLen m) = some (beBytes (getNumOfBytesByLen m) id) := by
  unfold writeKeyRow
  rw [if_pos (getNumOfBytesByLen_valid m)]

set_option maxHeartbeats 2000000 in
/-- C9 (amended): on every well-formed nonempty encoded storage changeset,
`Find` returns the stored value bytes when the queried
(address-hash, storage-key-hash) pair is present and the not-found error
otherwise — never a nil value with a nil error (which it does return for the
empty and zero-element inputs excluded here). -/
theorem findSCS_good (cs : List Change) (h : GoodCS cs) (hne : cs ≠ []) (a k : List Nat) :
    (∃ c ∈ cs, addrOf c = a ∧ keyHashOf c = k ∧
      FindSCS (EncodeStorage cs) a k = .ok c.Value) ∨
    ((∀ c ∈ cs, ¬ (addrOf c = a ∧ keyHashOf c = k)) ∧
      FindSCS (EncodeStorage cs) a k = .notFound) := by
  have hE : EncodeStorage cs = encodeSorted cs := by
    unfold EncodeStorage
    rw [sortChanges_eq_self cs h.2.1]
  rw [hE]
  have hn : 0 < cs.length := List.length_pos.mpr hne
  have hlen := parse_len cs [] h
  rw [List.append_nil] at hlen
  have hw := getNumOfBytesByLen_pos (dictOf cs).length
  have h0 : ¬ ((encodeSorted cs).length = 0) := by omega
  have h1 : ¬ ((encodeSorted cs).length < 8) := by omega
  have h2 : ¬ (cs.length = 0) := by omega
  have pn := parse_n cs [] h
  have pdl := parse_dl cs [] h
  have pn8 := parse_n8 cs [] h
  have pn16 := parse_n16 cs [] h
  have pn32 := parse_n32 cs [] h
  rw [List.append_nil] at pn pdl pn8 pn16 pn32
  have hLV : ((encodeSorted cs).drop (4 + 2 + (dictOf cs).length * 32
      + cs.length * (getNumOfBytesByLen (dictOf cs).length + 32) + 6)).take cs.length
      = cumsOf cs := by
    have hd := parse_dropLenPos cs [] h
    rw [List.append_nil] at hd
    rw [hd]
    exact take_append_exact _ _ _ (cumsOf_length cs)
  have hV : (encodeSorted cs).drop (4 + 2 + (dictOf cs).length * 32
      + cs.length * (getNumOfBytesByLen (dictOf cs).length + 32) + 6 + cs.length)
      = (cs.map (fun c => c.Value)).flatten := by
    have hd := parse_dropLenPos cs [] h
    rw [List.append_nil, List.append_nil] at hd
    rw [← List.drop_drop, hd]
    exact drop_append_exact _ _ _ (cumsOf_length cs)
  by_cases hex : ∃ c ∈ cs, addrOf c = a ∧ keyHashOf c = k
  · left
    obtain ⟨c, hc, hca, hck⟩ := hex
    obtain ⟨j0, hj0lt, hj0e⟩ := List.mem_iff_getElem.mp hc
    have hgd : cs.getD j0 default = c := by
      rw [List.getD_eq_getElem _ _ hj0lt, hj0e]
    have hamem : a ∈ dictOf cs := by
      rw [← hca]
      exact addrOf_mem_dictOf cs c hc
    refine ⟨c, hc, hca, hck, ?_⟩
    unfold FindSCS
    rw [if_neg h0, if_neg h1]
    simp only [pn, pdl, pn8, pn16, pn32]
    rw [if_neg h2]
    rw [dict_find_some cs h a hamem]
    simp only [Option.elim_some, writeKeyRow_getNum]
    rw [row_find_some cs h a k j0 hj0lt (by rw [hgd, hca]) (by rw [hgd, hck])]
    simp only [Option.elim_some, Nat.zero_mul, Nat.mul_zero, Nat.add_zero,
      Nat.add_sub_cancel_left]
    rw [hLV, hV, findVal_good cs h j0 hj0lt]
    simp only [Option.elim_some]
    rw [hgd]
  · right
    push_neg at hex
    refine ⟨fun c hc hck => hex c hc hck.1 hck.2, ?_⟩
    unfold FindSCS
    rw [if_neg h0, if_neg h1]
    simp only [pn, pdl, pn8, pn16, pn32]
    rw [if_neg h2]
    by_cases hadict : a ∈ dictOf cs
    · rw [dict_find_some cs h a hadict]
      simp only [Option.elim_some, writeKeyRow_getNum]
      rw [row_find_none cs h a k hadict (fun c hc hck => hex c hc hck.1 hck.2)]
      simp only [Option.elim_none]
    · rw [dict_find_none cs h a hadict]
      simp only [Option.elim_none]

/-- Witness for the amended C9 theorem at a concrete one-change set. -/
theorem findSCS_good_witness :
    GoodCS [⟨List.replicate 32 3 ++ defaultRawInc ++ List.replicate 32 4, [9]⟩] ∧
    ((∃ c ∈ [(⟨List.replicate 32 3 ++ defaultRawInc ++ List.replicate 32 4, [9]⟩ : Change)],
        addrOf c = List.replicate 32 3 ∧ keyHashOf c = List.replicate 32 4 ∧
        FindSCS (EncodeStorage [⟨List.replicate 32 3 ++ defaultRawInc ++ List.replicate 32 4, [9]⟩])
          (List.replicate 32 3) (List.replicate 32 4) = .ok c.Value) ∨
     ((∀ c ∈ [(⟨List.replicate 32 3 ++ defaultRawInc ++ List.replicate 32 4, [9]⟩ : Change)],
        ¬ (addrOf c = List.replicate 32 3 ∧ keyHashOf c = List.replicate 32 4)) ∧
      FindSCS (EncodeStorage [⟨List.replicate 32 3 ++ defaultRawInc ++ List.replicate 32 4, [9]⟩])
        (List.replicate 32 3) (List.replicate 32 4) = .notFound)) :=
  ⟨by unfold GoodCS SortedCh rawIncBytes; decide,
   findSCS_good [⟨List.replicate 32 3 ++ defaultRawInc ++ List.replicate 32 4, [9]⟩]
     (by unfold GoodCS SortedCh rawIncBytes; decide) (by decide)
     (List.replicate 32 3) (List.replicate 32 4)⟩
